import Mathlib

/-!
# mcp-filesystem: the access-control evaluator of `mcpfs/config.go`

A shallow embedding of the configuration loader (`ParseConfigData`,
`parsePerms`, `expandEnvInValue`) and of the rule evaluator
(`Config.IsAllowed`), together with the parts of Go's `path/filepath`
(Unix build) that the evaluator calls: `Clean`, `IsAbs`, `Join`, `Abs`, `Rel`.

Go strings are modelled as lists of characters. The path functions only
ever compare characters with `/` and `.`, so they behave the same on bytes.
-/

namespace Mcpfs

/-- A Go string. -/
abbrev Str := List Char

/-! ## Permission masks -/

/-- The Go type `Permission` (a `uint8` bit mask). -/
abbrev Permission := Nat

/-- Constant `PermNone Permission = 0`. -/
def PermNone : Permission := 0

/-- Constant `PermRead Permission = 1 << iota`, declared at `iota = 1`. -/
def PermRead : Permission := 1 <<< 1

/-- Constant `PermWrite`, the same expression at `iota = 2`. -/
def PermWrite : Permission := 1 <<< 2

/-- Constant `PermExec`, the same expression at `iota = 3`. -/
def PermExec : Permission := 1 <<< 3

/-! ## Data model -/

/-- The Go struct `PathRule`. `AllowSubpaths` is a `*bool`: `none` is the nil
pointer. `parsedPerms` and `cleanPath` are the unexported runtime fields. -/
structure PathRule where
  Path : Str
  Perms : List Str
  AllowSubpaths : Option Bool
  Description : Str
  parsedPerms : Permission
  cleanPath : Str
  deriving DecidableEq, Repr

/-- The Go struct `Config`. -/
structure Config where
  Version : Str
  Paths : List PathRule
  LogLevel : Str
  LogPath : Str
  deriving DecidableEq, Repr

/-- The errors `ParseConfigData` can return, one constructor per `fmt.Errorf`
call site. -/
inductive ConfigError where
  /-- Error built as `"%w: yaml unmarshal: %v"` from `ErrParse`. -/
  | parse (msg : Str)
  /-- Error built as `"expand env: %w"`. -/
  | expandEnv (inner : ConfigError)
  /-- Error built as `"invalid perms for path %q: %w"` from `r.Path`. -/
  | invalidPerms (path : Str) (inner : ConfigError)
  /-- Error built as `"unknown permission %q"` from the token `p`. -/
  | unknownPermission (token : Str)
  deriving DecidableEq, Repr

/-- What the loader and the evaluator take from outside `config.go`: the YAML
decoder, the process environment and working directory, two functions of Go's
`strings` package, the quoting of `fmt`, and the sentinel `ErrParse`, which the
package declares in another file. -/
structure Sys where
  /-- Decoder `yaml.Unmarshal(data, &cfg)` on a zero `Config`. -/
  yamlUnmarshal : List Nat → Except Str Config
  /-- Function `os.ExpandEnv` against the process environment. -/
  expandEnv : Str → Str
  /-- Function `os.Getwd`; `none` when it returns an error. -/
  getwd : Option Str
  /-- Function `strings.ToLower`. -/
  toLower : Str → Str
  /-- Function `strings.TrimSpace`. -/
  trimSpace : Str → Str
  /-- Quoting of the `%q` verb (`strconv.Quote`). -/
  quote : Str → Str
  /-- Message of the sentinel `ErrParse`. -/
  errParse : Str

/-- The message of an error, as `fmt.Errorf` formats it. -/
def ConfigError.message (sys : Sys) : ConfigError → Str
  | .parse msg => sys.errParse ++ ": yaml unmarshal: ".toList ++ msg
  | .expandEnv inner => "expand env: ".toList ++ inner.message sys
  | .invalidPerms path inner =>
    "invalid perms for path ".toList ++ sys.quote path ++ ": ".toList ++ inner.message sys
  | .unknownPermission token => "unknown permission ".toList ++ sys.quote token

/-! ## `path/filepath` on Unix -/

/-- The path separator. -/
def Separator : Char := '/'

/-- Function `strings.HasPrefix`. -/
def HasPrefix (s pre : Str) : Bool := s.take pre.length == pre

/-- Function `filepath.IsAbs` (Unix): the path starts with a separator. -/
def IsAbs (path : Str) : Bool := HasPrefix path [Separator]

/-- The inner loop of the `..` case of `Clean`, on the write index:
`for out.w > dotdot && !IsPathSeparator(out.index(out.w)) { out.w-- }`. -/
def backtrack (out : Str) (dotdot : Nat) : Nat → Nat
  | 0 => 0
  | w + 1 =>
    if w + 1 > dotdot ∧ out[w + 1]? ≠ some Separator then backtrack out dotdot w
    else w + 1

/-- The main loop of `Clean`. `path` is the unread input `path[r:]`, `out` the
written buffer `out.buf[:out.w]`, `dotdot` the index where `..` must stop.
Every iteration reads at least one character, so `fuel` bounds the number of
iterations by the length of the input. -/
def cleanLoop (rooted : Bool) : Nat → Str → Str → Nat → Str
  | 0, _, out, _ => out
  | fuel + 1, path, out, dotdot =>
    match path with
    | [] => out
    | c :: rest =>
      if c = Separator then
        -- empty path element
        cleanLoop rooted fuel rest out dotdot
      else if c = '.' ∧ (rest = [] ∨ rest.head? = some Separator) then
        -- . element
        cleanLoop rooted fuel rest out dotdot
      else if c = '.' ∧ rest.head? = some '.' ∧
          (rest.tail = [] ∨ rest.tail.head? = some Separator) then
        -- .. element: remove to last separator
        if out.length > dotdot then
          -- can backtrack
          cleanLoop rooted fuel rest.tail
            (out.take (backtrack out dotdot (out.length - 1))) dotdot
        else if !rooted then
          -- cannot backtrack, but not rooted, so append .. element
          let out1 := (if out.length > 0 then out ++ [Separator] else out) ++ ['.', '.']
          cleanLoop rooted fuel rest.tail out1 out1.length
        else
          cleanLoop rooted fuel rest.tail out dotdot
      else
        -- real path element: add slash if needed, then copy the element
        let out1 :=
          if (rooted ∧ out.length ≠ 1) ∨ (!rooted ∧ out.length ≠ 0) then out ++ [Separator]
          else out
        cleanLoop rooted fuel ((c :: rest).dropWhile (· ≠ Separator))
          (out1 ++ (c :: rest).takeWhile (· ≠ Separator)) dotdot

/-- Function `filepath.Clean` (Unix: no volume name). -/
def Clean (path : Str) : Str :=
  if path = [] then ['.']
  else
    let rooted := path.head? = some Separator
    let out := cleanLoop rooted path.length (if rooted then path.tail else path)
      (if rooted then [Separator] else []) (if rooted then 1 else 0)
    -- turn empty string into "."
    if out.length = 0 then ['.'] else out

/-- Function `filepath.Join` of two elements: the non-empty elements from the
first non-empty one on are joined with the separator, and the result cleaned. -/
def Join (a b : Str) : Str :=
  if a ≠ [] then Clean (a ++ Separator :: b)
  else if b ≠ [] then Clean b
  else []

/-- Function `filepath.Abs` (Unix): `none` when `os.Getwd` fails. -/
def Abs (sys : Sys) (path : Str) : Option Str :=
  if IsAbs path then some (Clean path)
  else
    match sys.getwd with
    | none => none
    | some wd => some (Join wd path)

/-- The element loop of `Rel`. `b` is `base[bi:]` and `t` is `targ[ti:]` at the
top of an iteration (where `b0 = bi` and `t0 = ti`). The result is
`(base[b0:bi], base[b0:], targ[t0:])` when the loop is left. Every iteration
that continues advances `bi`, so `fuel` bounded by the length of `base` is
enough. -/
def relLoop : Nat → Str → Str → Str × Str × Str
  | 0, b, t => ([], b, t)
  | fuel + 1, b, t =>
    if b ≠ [] ∧ t ≠ [] then
      let belem := b.takeWhile (· ≠ Separator)
      let telem := t.takeWhile (· ≠ Separator)
      if telem ≠ belem then (belem, b, t)
      else
        relLoop fuel ((b.dropWhile (· ≠ Separator)).drop 1)
          ((t.dropWhile (· ≠ Separator)).drop 1)
    else ([], b, t)

/-- Function `filepath.Rel` (Unix); `none` when it returns an error. -/
def Rel (basepath targpath : Str) : Option Str :=
  let base := Clean basepath
  let targ := Clean targpath
  if targ = base then some ['.']
  else
    let base := if base = ['.'] then [] else base
    let baseSlashed := base.head? = some Separator
    let targSlashed := targ.head? = some Separator
    if baseSlashed ≠ targSlashed then none
    else
      let (belem, brest, trest) := relLoop (base.length + 1) base targ
      if belem = ['.', '.'] then none
      else if brest ≠ [] then
        -- base elements left: must go up before going down
        let seps := brest.count Separator
        some (['.', '.'] ++ (List.replicate seps [Separator, '.', '.']).flatten ++
          (if trest ≠ [] then Separator :: trest else []))
      else some trest

/-! ## Loading: `parsePerms`, `expandEnvInValue`, `ParseConfigData` -/

/-- The loop of `parsePerms`, with `mask` the accumulator `var mask Permission`.
The `switch` is on `strings.ToLower(strings.TrimSpace(p))`; the error carries
the token `p` itself. -/
def parsePermsLoop (sys : Sys) : List Str → Permission → Except ConfigError Permission
  | [], mask => .ok mask
  | p :: rest, mask =>
    let name := sys.toLower (sys.trimSpace p)
    if name = "read".toList ∨ name = "r".toList then
      parsePermsLoop sys rest (mask ||| PermRead)
    else if name = "write".toList ∨ name = "w".toList then
      parsePermsLoop sys rest (mask ||| PermWrite)
    else if name = "exec".toList ∨ name = "execute".toList ∨ name = "x".toList then
      parsePermsLoop sys rest (mask ||| PermExec)
    else .error (.unknownPermission p)

/-- Function `parsePerms`: the loop started on the zero mask. -/
def parsePerms (sys : Sys) (perms : List Str) : Except ConfigError Permission :=
  parsePermsLoop sys perms 0

/-- The `reflect.String` case of `expandEnvInValue` on a settable string. -/
def expandEnvString (sys : Sys) (s : Str) : Str := sys.expandEnv s

/-- The `reflect.Slice` case of `expandEnvInValue` on a `[]string`: every
element is replaced by its expansion. -/
def expandEnvStrings (sys : Sys) (xs : List Str) : List Str := xs.map sys.expandEnv

/-- The `reflect.Pointer` case of `expandEnvInValue` on a `*bool`: a nil pointer
is set to a newly allocated zero value (`v.Set(reflect.New(v.Type().Elem()))`),
and the walk goes on into the `bool`, which no case of the switch touches. -/
def expandEnvBoolPtr (p : Option Bool) : Option Bool :=
  match p with
  | none => some false
  | some b => some b

/-- The `reflect.Struct` case of `expandEnvInValue` on a `PathRule`: the exported
fields are walked in order, the unexported ones are skipped. -/
def expandEnvPathRule (sys : Sys) (r : PathRule) : PathRule :=
  { Path := expandEnvString sys r.Path
    Perms := expandEnvStrings sys r.Perms
    AllowSubpaths := expandEnvBoolPtr r.AllowSubpaths
    Description := expandEnvString sys r.Description
    parsedPerms := r.parsedPerms
    cleanPath := r.cleanPath }

/-- Function `expandEnvInValue` on `reflect.ValueOf(&cfg)`: the pointer is not
nil, so the walk enters the `Config` struct; `Paths` is a slice of structs, each
walked in turn. No case returns an error. -/
def expandEnvInValue (sys : Sys) (cfg : Config) : Except ConfigError Config :=
  .ok
    { Version := expandEnvString sys cfg.Version
      Paths := cfg.Paths.map (expandEnvPathRule sys)
      LogLevel := expandEnvString sys cfg.LogLevel
      LogPath := expandEnvString sys cfg.LogPath }

/-- Constant `ConfigVersionV1`. -/
def ConfigVersionV1 : Str := "1.0".toList

/-- Constant `defaultAllowSubpaths`. -/
def defaultAllowSubpaths : Bool := true

/-- Cleaning and best-effort absolutization, as `ParseConfigData` does it for a
rule path and `IsAllowed` for the query path. -/
def cleanAbs (sys : Sys) (path : Str) : Str :=
  let clean := Clean path
  if !IsAbs clean then
    match Abs sys clean with
    | some abs => abs
    | none => clean
  else clean

/-- The body of the loop of `ParseConfigData` on one rule. -/
def parseRule (sys : Sys) (r : PathRule) : Except ConfigError PathRule :=
  -- default to allowing subpaths; explicit false must be set to disable
  let allow : Option Bool :=
    if r.AllowSubpaths = none then some defaultAllowSubpaths else r.AllowSubpaths
  let clean := cleanAbs sys r.Path
  if r.Perms.length = 0 then
    -- default to read-only
    .ok { r with AllowSubpaths := allow, cleanPath := clean, parsedPerms := PermRead }
  else
    match parsePerms sys r.Perms with
    | .error err => .error (.invalidPerms r.Path err)
    | .ok mask => .ok { r with AllowSubpaths := allow, cleanPath := clean, parsedPerms := mask }

/-- The loop `for i := range cfg.Paths` of `ParseConfigData`: it returns at the
first rule that fails. -/
def parseRules (sys : Sys) : List PathRule → Except ConfigError (List PathRule)
  | [] => .ok []
  | r :: rest =>
    match parseRule sys r with
    | .error err => .error err
    | .ok r1 =>
      match parseRules sys rest with
      | .error err => .error err
      | .ok rs => .ok (r1 :: rs)

/-- Function `ParseConfigData`. An `.error` result is the Go result
`(nil, err)`. -/
def ParseConfigData (sys : Sys) (data : List Nat) : Except ConfigError Config :=
  match sys.yamlUnmarshal data with
  | .error msg => .error (.parse msg)
  | .ok cfg =>
    -- default version if empty
    let cfg := if cfg.Version = [] then { cfg with Version := ConfigVersionV1 } else cfg
    -- expand environment variables throughout the struct
    match expandEnvInValue sys cfg with
    | .error err => .error (.expandEnv err)
    | .ok cfg =>
      -- normalize and parse each path rule
      match parseRules sys cfg.Paths with
      | .error err => .error err
      | .ok rules => .ok { cfg with Paths := rules }

/-! ## Querying: `IsAllowed` -/

/-- The outcome of a call that may panic. -/
inductive Outcome (α : Type) where
  /-- The call returned a value. -/
  | returned (value : α)
  /-- The call panicked (nil pointer dereference). -/
  | panicked
  deriving DecidableEq, Repr

/-- The loop `for i := range c.Paths` of `IsAllowed`. Dereferencing a nil
`AllowSubpaths` panics. -/
def isAllowedLoop (op : Permission) (cleanTarget : Str) : List PathRule → Outcome Bool
  | [] => .returned false
  | r :: rest =>
    -- permission check
    if r.parsedPerms &&& op = 0 then
      -- this rule doesn't grant the requested operation
      isAllowedLoop op cleanTarget rest
    -- path match
    else if r.cleanPath = cleanTarget then
      -- exact match passes
      .returned true
    else
      match r.AllowSubpaths with
      | none => .panicked
      | some true =>
        match Rel r.cleanPath cleanTarget with
        | none =>
          -- cannot compute relation; skip this rule
          isAllowedLoop op cleanTarget rest
        | some rel =>
          if rel = ['.'] then
            -- same path; ok
            .returned true
          else if HasPrefix rel ['.', '.'] then
            -- target is outside of rule path; no match
            isAllowedLoop op cleanTarget rest
          else
            -- target is a subpath under rule path -> match
            .returned true
      | some false =>
        -- not exact and subpaths aren't allowed
        isAllowedLoop op cleanTarget rest

/-- Method `(*Config).IsAllowed`; `none` is the nil receiver. -/
def IsAllowed (sys : Sys) (c : Option Config) (op : Permission) (targetPath : Str) :
    Outcome Bool :=
  match c with
  | none => .returned false
  | some cfg => isAllowedLoop op (cleanAbs sys targetPath) cfg.Paths

/-! ## Vocabulary of the properties -/

/-- A rule grants an operation when its mask has a bit in common with it. -/
def grantsOp (r : PathRule) (op : Permission) : Bool := r.parsedPerms &&& op != 0

/-- A rule matches a cleaned query path: the paths are equal, or the rule covers
subpaths and the relation from the rule path to the query path is computed, and
is `.` or does not begin with `..`. -/
def pathMatches (r : PathRule) (cleanTarget : Str) : Bool :=
  r.cleanPath == cleanTarget ||
    (r.AllowSubpaths == some true &&
      match Rel r.cleanPath cleanTarget with
      | none => false
      | some rel => rel == ['.'] || !HasPrefix rel ['.', '.'])

/-- The permission names of the specification. -/
def permNames : List Str :=
  ["read".toList, "r".toList, "write".toList, "w".toList, "exec".toList,
    "execute".toList, "x".toList]

/-- The bit of a permission name: `read`/`r` is Read, `write`/`w` is Write,
`exec`/`execute`/`x` is Execute. Other names have no bit. -/
def permBitOf (name : Str) : Permission :=
  if name = "read".toList ∨ name = "r".toList then PermRead
  else if name = "write".toList ∨ name = "w".toList then PermWrite
  else if name = "exec".toList ∨ name = "execute".toList ∨ name = "x".toList then PermExec
  else PermNone

/-- A name as `parsePerms` looks it up: trimmed, then lower-cased. -/
def normName (sys : Sys) (p : Str) : Str := sys.toLower (sys.trimSpace p)

/-- A sample environment: the decoder yields `doc` for every input, no string
holds a variable reference or an upper-case letter, the working directory is
the root. -/
def fixtureSys (doc : Config) : Sys where
  yamlUnmarshal := fun _ => .ok doc
  expandEnv := id
  getwd := some ['/']
  toLower := id
  trimSpace := id
  quote := fun s => '"' :: s ++ ['"']
  errParse := "parse error".toList

/-- A declared rule, as the decoder leaves it: runtime fields zero. -/
def declRule (path : String) (perms : List String) (allow : Option Bool) : PathRule where
  Path := path.toList
  Perms := perms.map String.toList
  AllowSubpaths := allow
  Description := []
  parsedPerms := 0
  cleanPath := []

/-- A declared document holding the given rules. -/
def declDoc (rules : List PathRule) : Config where
  Version := []
  Paths := rules
  LogLevel := []
  LogPath := []

/-- A canonical rule given directly by its runtime fields. -/
def canonRule (cleanPath : String) (mask : Permission) (allow : Option Bool) : PathRule where
  Path := cleanPath.toList
  Perms := []
  AllowSubpaths := allow
  Description := []
  parsedPerms := mask
  cleanPath := cleanPath.toList

/-! ## `os.Expand` and `Config.ExpandEnv` -/

/-- Function `isShellSpecialVar` of package `os`: the character names a special
shell variable such as `$*`. -/
def os.isShellSpecialVar (c : Char) : Bool :=
  c ∈ ['*', '#', '$', '@', '!', '?', '-', '0', '1', '2', '3', '4', '5', '6', '7', '8', '9']

/-- Function `isAlphaNum` of package `os`: an ASCII letter, digit or underscore. -/
def os.isAlphaNum (c : Char) : Bool :=
  c = '_' ∨ ('0' ≤ c ∧ c ≤ '9') ∨ ('a' ≤ c ∧ c ≤ 'z') ∨ ('A' ≤ c ∧ c ≤ 'Z')

/-- Function `getShellName` of package `os`, called on a non-empty string: the
name that begins the string and the number of characters it takes. -/
def os.getShellName (s : Str) : Str × Nat :=
  match s with
  | [] => ([], 0)
  | c :: rest =>
    if c = '{' then
      if s.length > 2 ∧ (rest.head?.map os.isShellSpecialVar = some true) ∧
          rest.tail.head? = some '}' then
        (rest.take 1, 3)
      else if rest.dropWhile (· ≠ '}') ≠ [] then
        -- scan to closing brace
        if rest.takeWhile (· ≠ '}') = [] then
          -- bad syntax; eat "${}"
          ([], 2)
        else (rest.takeWhile (· ≠ '}'), (rest.takeWhile (· ≠ '}')).length + 2)
      else
        -- bad syntax; eat "${"
        ([], 1)
    else if os.isShellSpecialVar c then ([c], 1)
    else
      -- scan alphanumerics
      (s.takeWhile os.isAlphaNum, (s.takeWhile os.isAlphaNum).length)

/-- The loop of `os.Expand`, on the unread input `s[j:]`; the characters that are
not part of a reference are copied as they are. Every iteration reads at least
one character, so `fuel` bounded by the length of the input is enough. -/
def os.expandLoop (mapping : Str → Str) : Nat → Str → Str
  | 0, s => s
  | _ + 1, [] => []
  | fuel + 1, c :: rest =>
    if c = '$' ∧ rest ≠ [] then
      let name := (os.getShellName rest).1
      let w := (os.getShellName rest).2
      (if name = [] ∧ w > 0 then
          -- encountered invalid syntax; eat the characters
          []
        else if name = [] then
          -- valid syntax, but $ was not followed by a name: leave the dollar
          [c]
        else mapping name) ++ os.expandLoop mapping fuel (rest.drop w)
    else c :: os.expandLoop mapping fuel rest

/-- Function `os.Expand`. -/
def os.Expand (s : Str) (mapping : Str → Str) : Str := os.expandLoop mapping s.length s

/-- Function `os.ExpandEnv`, with `getenv` the function `os.Getenv` of the
process: the value of the variable, empty when it is not set. -/
def os.ExpandEnv (getenv : Str → Str) (s : Str) : Str := os.Expand s getenv

/-- Method `(*Config).ExpandEnv`: the configuration after the call, which is
mutated in place, and the error returned. `none` is the nil receiver. -/
def Config.ExpandEnv (sys : Sys) (c : Option Config) : Option Config × Option ConfigError :=
  match c with
  | none => (none, none)
  | some cfg =>
    match expandEnvInValue sys cfg with
    | .ok cfg1 => (some cfg1, none)
    | .error err => (some cfg, some err)

/-- A sample process environment: `X` is `/tmp`, every other variable is unset. -/
def sampleGetenv (name : Str) : Str := if name = "X".toList then "/tmp".toList else []

/-- The sample environment `fixtureSys` with `os.ExpandEnv` on a given process
environment as the expansion. -/
def envSys (getenv : Str → Str) (doc : Config) : Sys :=
  { fixtureSys doc with expandEnv := os.ExpandEnv getenv }

/-! ## Path vocabulary -/

/-- A path is rooted when it starts with a separator. -/
def isRooted (p : Str) : Bool := decide (p.head? = some Separator)

/-- The elements of a path: the pieces between separators, empty ones included. -/
def splitSep : Str → List Str
  | [] => [[]]
  | c :: rest =>
    if c = Separator then [] :: splitSep rest
    else (c :: (splitSep rest).headD []) :: (splitSep rest).tail

/-- The components of a path: its elements other than the empty one and `.`. -/
def components (p : Str) : List Str :=
  (splitSep p).filter fun e => decide (e ≠ [] ∧ e ≠ ['.'])

/-- Path `a` is a proper ancestor of path `b` component-wise: both are rooted or
both are not, and the components of `a` are a strict prefix of those of `b`. -/
def properAncestor (a b : Str) : Bool :=
  isRooted a == isRooted b && (components a).isPrefixOf (components b) &&
    decide ((components a).length < (components b).length)

/-- Elements joined by separators. -/
def joinSep : List Str → Str
  | [] => []
  | [e] => e
  | e :: e2 :: es => e ++ Separator :: joinSep (e2 :: es)

/-- The buffer of `Clean` holding the elements `st`. -/
def renderRaw (rooted : Bool) (st : List Str) : Str :=
  (if rooted then [Separator] else []) ++ joinSep st

/-- The result of `Clean` for the elements `st`: the empty buffer becomes `.`. -/
def render (rooted : Bool) (st : List Str) : Str :=
  if renderRaw rooted st = [] then ['.'] else renderRaw rooted st

/-- The elements held by a state of the element-wise cleaner: `k` leading `..`
followed by the named elements `ns`. -/
def stackOf (st : Nat × List Str) : List Str := List.replicate st.1 ['.', '.'] ++ st.2

/-- One element processed by `Clean`: `..` removes the last named element, or is
kept in front of a relative path, or is dropped at the root; any other element
is appended. -/
def cleanStep (rooted : Bool) (st : Nat × List Str) (e : Str) : Nat × List Str :=
  if e = ['.', '.'] then
    if st.2 ≠ [] then (st.1, st.2.dropLast)
    else if rooted then st
    else (st.1 + 1, st.2)
  else (st.1, st.2 ++ [e])

/-- The element-wise cleaner: the components processed from the empty state. -/
def cleanElems (rooted : Bool) (comps : List Str) : Nat × List Str :=
  comps.foldl (cleanStep rooted) (0, [])

/-- A named element: not empty, without separator, and neither `.` nor `..`. -/
def NormalElem (e : Str) : Prop :=
  e ≠ [] ∧ (∀ c ∈ e, c ≠ Separator) ∧ e ≠ ['.'] ∧ e ≠ ['.', '.']

/-- The components contributed by one element. -/
def elemComps (e : Str) : List Str := if e ≠ [] ∧ e ≠ ['.'] then [e] else []

/-- The buffer `out` and the index `dotdot` of `Clean` hold the state `st`. -/
def Canon (r : Bool) (st : Nat × List Str) (out : Str) (dd : Nat) : Prop :=
  (∀ e ∈ st.2, NormalElem e) ∧ (r = true → st.1 = 0) ∧ out = renderRaw r (stackOf st) ∧
    dd = (renderRaw r (List.replicate st.1 ['.', '.'])).length

/-- The states the element-wise cleaner reaches: named elements after the
leading `..`, and no leading `..` under the root. -/
def CanonSt (r : Bool) (st : Nat × List Str) : Prop :=
  (∀ e ∈ st.2, NormalElem e) ∧ (r = true → st.1 = 0)

/-! ## Loading: supporting lemmas -/

theorem parseRules_get (sys : Sys) :
    ∀ (rs rs1 : List PathRule), parseRules sys rs = .ok rs1 →
      ∀ (i : Nat) (r : PathRule), rs[i]? = some r →
        ∃ r1, rs1[i]? = some r1 ∧ parseRule sys r = .ok r1 := by
  intro rs
  induction rs with
  | nil => intro rs1 _ i r hr; simp at hr
  | cons a rest ih =>
    intro rs1 h i r hr
    unfold parseRules at h
    cases ha : parseRule sys a with
    | error e => rw [ha] at h; simp at h
    | ok a1 =>
      rw [ha] at h
      cases hrest : parseRules sys rest with
      | error e => rw [hrest] at h; simp at h
      | ok rest1 =>
        rw [hrest] at h
        simp only [Except.ok.injEq] at h
        subst h
        cases i with
        | zero =>
          simp only [List.getElem?_cons_zero, Option.some.injEq] at hr
          subst hr
          exact ⟨a1, by simp, ha⟩
        | succ j =>
          simp only [List.getElem?_cons_succ] at hr
          obtain ⟨r1, h1, h2⟩ := ih rest1 hrest j r hr
          exact ⟨r1, by simpa using h1, h2⟩

/-- What a successful load is made of: the decoded document, its expansion, and
the rules parsed from the expanded ones. -/
theorem ParseConfigData_ok (sys : Sys) (data : List Nat) (doc cfg : Config)
    (hdoc : sys.yamlUnmarshal data = .ok doc) (h : ParseConfigData sys data = .ok cfg) :
    parseRules sys (doc.Paths.map (expandEnvPathRule sys)) = .ok cfg.Paths := by
  unfold ParseConfigData at h
  rw [hdoc] at h
  simp only [expandEnvInValue] at h
  split at h
  · simp at h
  · rename_i rules hrules
    simp only [Except.ok.injEq] at h
    subst h
    split at hrules <;> simpa using hrules

theorem ParseConfigData_rule (sys : Sys) (data : List Nat) (doc cfg : Config)
    (hdoc : sys.yamlUnmarshal data = .ok doc) (h : ParseConfigData sys data = .ok cfg)
    (i : Nat) (r : PathRule) (hr : doc.Paths[i]? = some r) :
    ∃ r1, cfg.Paths[i]? = some r1 ∧ parseRule sys (expandEnvPathRule sys r) = .ok r1 := by
  have h1 := ParseConfigData_ok sys data doc cfg hdoc h
  apply parseRules_get sys _ _ h1 i
  simp [List.getElem?_map, hr]

theorem parseRule_allowSubpaths (sys : Sys) (r r1 : PathRule)
    (h : parseRule sys (expandEnvPathRule sys r) = .ok r1) :
    r1.AllowSubpaths = some (r.AllowSubpaths.getD false) := by
  unfold parseRule at h
  have hflag : (if (expandEnvPathRule sys r).AllowSubpaths = none then some defaultAllowSubpaths
      else (expandEnvPathRule sys r).AllowSubpaths) = some (r.AllowSubpaths.getD false) := by
    cases hr : r.AllowSubpaths <;> simp [expandEnvPathRule, expandEnvBoolPtr, hr]
  simp only [hflag] at h
  split at h
  · simp only [Except.ok.injEq] at h
    subst h
    rfl
  · split at h
    · simp at h
    · simp only [Except.ok.injEq] at h
      subst h
      rfl

/-- Every rule of a loaded configuration has its `AllowSubpaths` pointer set, to
the declared value, or to `false` when the declaration left it unset. -/
theorem loaded_allowSubpaths (sys : Sys) (data : List Nat) (doc cfg : Config)
    (hdoc : sys.yamlUnmarshal data = .ok doc) (h : ParseConfigData sys data = .ok cfg)
    (i : Nat) (r : PathRule) (hr : doc.Paths[i]? = some r) :
    ∃ r1, cfg.Paths[i]? = some r1 ∧ r1.AllowSubpaths = some (r.AllowSubpaths.getD false) := by
  obtain ⟨r1, h1, h2⟩ := ParseConfigData_rule sys data doc cfg hdoc h i r hr
  exact ⟨r1, h1, parseRule_allowSubpaths sys r r1 h2⟩

theorem known_iff (name : Str) :
    name ∈ permNames ↔
      ((name = "read".toList ∨ name = "r".toList) ∨
        (name = "write".toList ∨ name = "w".toList) ∨
        (name = "exec".toList ∨ name = "execute".toList ∨ name = "x".toList)) := by
  unfold permNames
  simp only [List.mem_cons, List.mem_singleton, List.not_mem_nil, or_false]
  tauto

theorem parsePermsLoop_known (sys : Sys) (p : Str) (rest : List Str) (mask : Permission)
    (h : normName sys p ∈ permNames) :
    parsePermsLoop sys (p :: rest) mask
      = parsePermsLoop sys rest (mask ||| permBitOf (normName sys p)) := by
  rw [known_iff] at h
  unfold normName at h
  simp only [parsePermsLoop, permBitOf, normName]
  split_ifs <;> first | rfl | (exfalso; tauto)

theorem parsePermsLoop_unknown (sys : Sys) (p : Str) (rest : List Str) (mask : Permission)
    (h : normName sys p ∉ permNames) :
    parsePermsLoop sys (p :: rest) mask = .error (.unknownPermission p) := by
  rw [known_iff] at h
  unfold normName at h
  simp only [parsePermsLoop]
  split_ifs <;> first | rfl | (exfalso; tauto)

theorem parsePermsLoop_all_known (sys : Sys) :
    ∀ (perms : List Str) (mask : Permission), (∀ p ∈ perms, normName sys p ∈ permNames) →
      parsePermsLoop sys perms mask
        = .ok ((perms.map fun p => permBitOf (normName sys p)).foldl (· ||| ·) mask) := by
  intro perms
  induction perms with
  | nil => intro mask _; rfl
  | cons p rest ih =>
    intro mask h
    rw [parsePermsLoop_known sys p rest mask (h p (List.mem_cons_self _ _))]
    rw [ih _ (fun q hq => h q (List.mem_cons_of_mem _ hq))]
    rfl

theorem parsePermsLoop_some_unknown (sys : Sys) :
    ∀ (perms : List Str) (mask : Permission), (∃ p ∈ perms, normName sys p ∉ permNames) →
      ∃ p ∈ perms, normName sys p ∉ permNames ∧
        parsePermsLoop sys perms mask = .error (.unknownPermission p) := by
  intro perms
  induction perms with
  | nil => intro mask h; obtain ⟨p, hp, _⟩ := h; simp at hp
  | cons q rest ih =>
    intro mask h
    by_cases hq : normName sys q ∈ permNames
    · have hrest : ∃ p ∈ rest, normName sys p ∉ permNames := by
        obtain ⟨p, hp, hbad⟩ := h
        rcases List.mem_cons.mp hp with rfl | hp1
        · exact absurd hq hbad
        · exact ⟨p, hp1, hbad⟩
      obtain ⟨p, hp, hbad, hres⟩ := ih (mask ||| permBitOf (normName sys q)) hrest
      exact ⟨p, List.mem_cons_of_mem _ hp, hbad, by rw [parsePermsLoop_known sys q rest mask hq, hres]⟩
    · exact ⟨q, List.mem_cons_self _ _, hq, parsePermsLoop_unknown sys q rest mask hq⟩

theorem foldl_lor_testBit (i : Nat) :
    ∀ (bits : List Nat) (mask : Nat),
      (bits.foldl (· ||| ·) mask).testBit i = (mask.testBit i || bits.any (·.testBit i)) := by
  intro bits
  induction bits with
  | nil => intro mask; simp
  | cons b rest ih =>
    intro mask
    simp only [List.foldl_cons, ih, Nat.testBit_or, List.any_cons, Bool.or_assoc]

theorem foldl_lor_congr (bits bits2 : List Nat) (h : ∀ b, b ∈ bits2 ↔ b ∈ bits) :
    bits2.foldl (· ||| ·) 0 = bits.foldl (· ||| ·) 0 := by
  apply Nat.eq_of_testBit_eq
  intro i
  rw [foldl_lor_testBit, foldl_lor_testBit, Bool.eq_iff_iff]
  simp only [Nat.zero_testBit, Bool.false_or, List.any_eq_true]
  constructor
  · rintro ⟨b, hb, hbit⟩; exact ⟨b, (h b).mp hb, hbit⟩
  · rintro ⟨b, hb, hbit⟩; exact ⟨b, (h b).mpr hb, hbit⟩

theorem parseRule_bad (sys : Sys) (r : PathRule)
    (h : ∃ p ∈ r.Perms, normName sys p ∉ permNames) :
    ∃ p ∈ r.Perms, normName sys p ∉ permNames ∧
      parseRule sys r = .error (.invalidPerms r.Path (.unknownPermission p)) := by
  obtain ⟨p, hp, hbad, hres⟩ := parsePermsLoop_some_unknown sys r.Perms 0 h
  refine ⟨p, hp, hbad, ?_⟩
  have hne : r.Perms.length ≠ 0 := by
    intro h0
    rw [List.length_eq_zero.mp h0] at hp
    simp at hp
  unfold parseRule parsePerms
  simp only [hne, if_false, hres]

theorem parseRule_good (sys : Sys) (r : PathRule)
    (h : ∀ p ∈ r.Perms, normName sys p ∈ permNames) : ∃ r1, parseRule sys r = .ok r1 := by
  unfold parseRule parsePerms
  by_cases hlen : r.Perms.length = 0
  · simp only [hlen, if_true]
    exact ⟨_, rfl⟩
  · simp only [hlen, if_false, parsePermsLoop_all_known sys r.Perms 0 h]
    exact ⟨_, rfl⟩

theorem parseRules_bad (sys : Sys) :
    ∀ (rs : List PathRule), (∃ r ∈ rs, ∃ p ∈ r.Perms, normName sys p ∉ permNames) →
      ∃ r ∈ rs, ∃ p ∈ r.Perms, normName sys p ∉ permNames ∧
        parseRules sys rs = .error (.invalidPerms r.Path (.unknownPermission p)) := by
  intro rs
  induction rs with
  | nil => intro h; obtain ⟨r, hr, _⟩ := h; simp at hr
  | cons a rest ih =>
    intro h
    by_cases ha : ∃ p ∈ a.Perms, normName sys p ∉ permNames
    · obtain ⟨p, hp, hbad, hres⟩ := parseRule_bad sys a ha
      refine ⟨a, List.mem_cons_self _ _, p, hp, hbad, ?_⟩
      unfold parseRules
      rw [hres]
    · have hgood : ∀ p ∈ a.Perms, normName sys p ∈ permNames := by
        intro p hp
        by_contra hbad
        exact ha ⟨p, hp, hbad⟩
      obtain ⟨a1, ha1⟩ := parseRule_good sys a hgood
      have hrest : ∃ r ∈ rest, ∃ p ∈ r.Perms, normName sys p ∉ permNames := by
        obtain ⟨r, hr, p, hp, hbad⟩ := h
        rcases List.mem_cons.mp hr with rfl | hr1
        · exact absurd ⟨p, hp, hbad⟩ ha
        · exact ⟨r, hr1, p, hp, hbad⟩
      obtain ⟨r, hr, p, hp, hbad, hres⟩ := ih hrest
      refine ⟨r, List.mem_cons_of_mem _ hr, p, hp, hbad, ?_⟩
      unfold parseRules
      rw [ha1, hres]

/-! ## Querying: supporting lemmas -/

theorem isAllowedLoop_no_grant (op : Permission) (cleanTarget : Str) :
    ∀ (rules : List PathRule), (∀ r ∈ rules, r.parsedPerms &&& op = 0) →
      isAllowedLoop op cleanTarget rules = .returned false := by
  intro rules
  induction rules with
  | nil => intro _; rfl
  | cons r rest ih =>
    intro h
    unfold isAllowedLoop
    rw [if_pos (h r (List.mem_cons_self _ _))]
    exact ih (fun q hq => h q (List.mem_cons_of_mem _ hq))

/-- One step of the loop on a rule whose pointer is set if it grants the
operation: the rule decides, or the loop goes on with the rest. -/
theorem isAllowedLoop_cons (op : Permission) (cleanTarget : Str) (r : PathRule)
    (rest : List PathRule) (hset : r.parsedPerms &&& op ≠ 0 → r.AllowSubpaths ≠ none) :
    isAllowedLoop op cleanTarget (r :: rest)
      = if grantsOp r op && pathMatches r cleanTarget then .returned true
        else isAllowedLoop op cleanTarget rest := by
  rw [isAllowedLoop]
  by_cases hmask : r.parsedPerms &&& op = 0
  · simp [hmask, grantsOp]
  · by_cases hexact : r.cleanPath = cleanTarget
    · simp [hmask, hexact, grantsOp, pathMatches]
    · cases hflag : r.AllowSubpaths with
      | none => exact absurd hflag (hset hmask)
      | some b =>
        cases b with
        | false => simp [hmask, hexact, grantsOp, pathMatches, hflag]
        | true =>
          cases hrel : Rel r.cleanPath cleanTarget with
          | none => simp [hmask, hexact, grantsOp, pathMatches, hflag, hrel]
          | some rel =>
            by_cases hdot : rel = ['.']
            · simp [hmask, hexact, grantsOp, pathMatches, hflag, hrel, hdot]
            · by_cases hpre : HasPrefix rel ['.', '.'] = true
              · simp [hmask, hexact, grantsOp, pathMatches, hflag, hrel, hdot, hpre]
              · simp [hmask, hexact, grantsOp, pathMatches, hflag, hrel, hdot, hpre]

theorem isAllowedLoop_eq_any (op : Permission) (cleanTarget : Str) :
    ∀ (rules : List PathRule),
      (∀ r ∈ rules, r.parsedPerms &&& op ≠ 0 → r.AllowSubpaths ≠ none) →
      isAllowedLoop op cleanTarget rules
        = .returned (rules.any fun r => grantsOp r op && pathMatches r cleanTarget) := by
  intro rules
  induction rules with
  | nil => intro _; rfl
  | cons r rest ih =>
    intro h
    rw [isAllowedLoop_cons op cleanTarget r rest (h r (List.mem_cons_self _ _)),
      ih (fun q hq => h q (List.mem_cons_of_mem _ hq))]
    cases hgm : (grantsOp r op && pathMatches r cleanTarget) <;> simp [hgm]

theorem any_perm {α : Type} (f : α → Bool) (xs ys : List α) (h : xs.Perm ys) :
    xs.any f = ys.any f := by
  rw [Bool.eq_iff_iff]
  simp only [List.any_eq_true]
  constructor
  · rintro ⟨x, hx, hf⟩; exact ⟨x, h.mem_iff.mp hx, hf⟩
  · rintro ⟨x, hx, hf⟩; exact ⟨x, h.mem_iff.mpr hx, hf⟩

/-- A path whose cleaned form is absolute is only cleaned, whatever the working
directory. -/
theorem cleanAbs_of_rooted (sys : Sys) (path : Str) (habs : IsAbs (Clean path) = true) :
    cleanAbs sys path = Clean path := by
  simp [cleanAbs, habs]

/-- An absolute path that is already clean is its own query form, whatever the
working directory. -/
theorem cleanAbs_of_abs (sys : Sys) (path : Str) (hclean : Clean path = path)
    (habs : IsAbs path = true) : cleanAbs sys path = path := by
  simp [cleanAbs, hclean, habs]

/-! ## Elements and components -/

theorem span_sep (p : Str) :
    p = p.takeWhile (· ≠ Separator) ++ p.dropWhile (· ≠ Separator) ∧
      (∀ c ∈ p.takeWhile (· ≠ Separator), c ≠ Separator) ∧
      (p.dropWhile (· ≠ Separator) = [] ∨
        ∃ y, p.dropWhile (· ≠ Separator) = Separator :: y) := by
  refine ⟨(List.takeWhile_append_dropWhile _ _).symm, ?_, ?_⟩
  · intro c hc
    have := List.mem_takeWhile_imp hc
    simpa using this
  · cases h : p.dropWhile (· ≠ Separator) with
    | nil => exact Or.inl rfl
    | cons d y =>
      right
      have hd := List.head_dropWhile_not (· ≠ Separator) p (by rw [h]; simp)
      simp only [h, List.head_cons] at hd
      have : d = Separator := by simpa using hd
      exact ⟨y, by rw [this]⟩

theorem splitSep_sepfree (e : Str) (h : ∀ c ∈ e, c ≠ Separator) : splitSep e = [e] := by
  induction e with
  | nil => rfl
  | cons c rest ih =>
    have hc : c ≠ Separator := h c (List.mem_cons_self _ _)
    have hrest := ih (fun d hd => h d (List.mem_cons_of_mem _ hd))
    simp [splitSep, hc, hrest]

theorem splitSep_append_sep (e y : Str) (h : ∀ c ∈ e, c ≠ Separator) :
    splitSep (e ++ Separator :: y) = e :: splitSep y := by
  induction e with
  | nil => simp [splitSep]
  | cons c rest ih =>
    have hc : c ≠ Separator := h c (List.mem_cons_self _ _)
    have hrest := ih (fun d hd => h d (List.mem_cons_of_mem _ hd))
    simp [splitSep, hc, hrest]

theorem components_nil : components [] = [] := by
  simp [components, splitSep]

theorem components_sepfree (e : Str) (h : ∀ c ∈ e, c ≠ Separator) :
    components e = elemComps e := by
  unfold components elemComps
  rw [splitSep_sepfree e h]
  by_cases hk : e ≠ [] ∧ e ≠ ['.'] <;> simp [hk]

theorem components_append_sep (e y : Str) (h : ∀ c ∈ e, c ≠ Separator) :
    components (e ++ Separator :: y) = elemComps e ++ components y := by
  unfold components elemComps
  rw [splitSep_append_sep e y h]
  by_cases hk : e ≠ [] ∧ e ≠ ['.'] <;> simp [hk]

theorem components_cons_sep (y : Str) : components (Separator :: y) = components y := by
  have := components_append_sep [] y (by simp)
  simpa [elemComps] using this

/-- A path is its first element followed by the rest: the components split the
same way. -/
theorem components_span (p : Str) :
    components p = elemComps (p.takeWhile (· ≠ Separator)) ++
      components ((p.dropWhile (· ≠ Separator)).drop 1) := by
  obtain ⟨hp, hfree, hdrop⟩ := span_sep p
  rcases hdrop with hnil | ⟨y, hy⟩
  · rw [hnil] at hp
    rw [hnil]
    simp only [List.append_nil] at hp
    rw [← hp, List.drop_nil, components_nil, List.append_nil]
    exact components_sepfree p (by rw [hp]; exact hfree)
  · rw [hy, List.drop_one, List.tail_cons]
    have h2 := components_append_sep _ y hfree
    rw [← hy, ← hp] at h2
    exact h2

/-! ## The element loop of `Rel` -/

/-- When the loop of `Rel` leaves no element of the base, the components of the
target are those of the base followed by those of what is left of the target. -/
theorem relLoop_exhausted :
    ∀ (fuel : Nat) (b t : Str), (relLoop fuel b t).2.1 = [] →
      components t = components b ++ components (relLoop fuel b t).2.2 := by
  intro fuel
  induction fuel with
  | zero =>
    intro b t h
    simp only [relLoop] at h ⊢
    rw [h, components_nil, List.nil_append]
  | succ n ih =>
    intro b t h
    unfold relLoop at h ⊢
    by_cases hne : b ≠ [] ∧ t ≠ []
    · rw [if_pos hne] at h ⊢
      by_cases hdiff : t.takeWhile (· ≠ Separator) ≠ b.takeWhile (· ≠ Separator)
      · simp only [if_pos hdiff] at h
        exact absurd h hne.1
      · simp only [if_neg hdiff] at h ⊢
        have hsame : t.takeWhile (· ≠ Separator) = b.takeWhile (· ≠ Separator) := by
          by_contra hx
          exact hdiff hx
        have hrec := ih _ _ h
        rw [components_span t, components_span b, hrec, hsame, List.append_assoc]
    · rw [if_neg hne] at h ⊢
      simp only at h ⊢
      rw [h, components_nil, List.nil_append]

/-- Fuel is adequate for the loop of `Rel`: any two amounts of at least the
length of the base give the same result. -/
theorem relLoop_fuel :
    ∀ (fuel1 fuel2 : Nat) (b t : Str), b.length ≤ fuel1 → b.length ≤ fuel2 →
      relLoop fuel1 b t = relLoop fuel2 b t := by
  intro fuel1
  induction fuel1 with
  | zero =>
    intro fuel2 b t h1 _
    have hb : b = [] := List.length_eq_zero.mp (by omega)
    subst hb
    cases fuel2 <;> simp [relLoop]
  | succ n ih =>
    intro fuel2 b t h1 h2
    cases fuel2 with
    | zero =>
      have hb : b = [] := List.length_eq_zero.mp (by omega)
      subst hb
      simp [relLoop]
    | succ m =>
      unfold relLoop
      by_cases hne : b ≠ [] ∧ t ≠ []
      · have hlen : ((b.dropWhile (· ≠ Separator)).drop 1).length + 1 ≤ b.length := by
          have hpos : 0 < b.length := List.length_pos.mpr hne.1
          have hle := (List.dropWhile_suffix (· ≠ Separator) (l := b)).length_le
          rw [List.length_drop]
          omega
        rw [if_pos hne, if_pos hne, ih m _ _ (by omega) (by omega)]
      · rw [if_neg hne, if_neg hne]

theorem hasPrefix_dotdot_append (x : Str) : HasPrefix (['.', '.'] ++ x) ['.', '.'] = true := by
  simp [HasPrefix]

/-- What an accepted relation says, for paths that `Clean` leaves unchanged: the
rootedness agrees and the components of the target extend those of the base. -/
theorem Rel_accepts (b t rel : Str) (hb : Clean b = b) (ht : Clean t = t)
    (hrel : Rel b t = some rel) (hacc : rel = ['.'] ∨ HasPrefix rel ['.', '.'] = false) :
    b = t ∨ (isRooted b = isRooted t ∧ ∃ extra, components t = components b ++ extra) := by
  by_cases heq : t = b
  · exact Or.inl heq.symm
  right
  unfold Rel at hrel
  simp only [hb, ht, if_neg heq] at hrel
  generalize hbase : (if b = ['.'] then [] else b) = base at hrel
  have hbcomp : components base = components b := by
    rw [← hbase]
    by_cases hdot : b = ['.']
    · rw [if_pos hdot, hdot]; decide
    · rw [if_neg hdot]
  have hbroot : (base.head? = some Separator) ↔ isRooted b = true := by
    rw [← hbase]
    by_cases hdot : b = ['.']
    · rw [if_pos hdot, hdot]; decide
    · rw [if_neg hdot]; simp [isRooted]
  by_cases hslash : (base.head? = some Separator) ≠ (t.head? = some Separator)
  · rw [if_pos hslash] at hrel
    exact absurd hrel (by simp)
  rw [if_neg hslash] at hrel
  have hroot : isRooted b = isRooted t := by
    have h1 : (base.head? = some Separator) = (t.head? = some Separator) := by
      by_contra hx
      exact hslash hx
    have h2 : (t.head? = some Separator) ↔ isRooted t = true := by simp [isRooted]
    rw [Bool.eq_iff_iff, ← hbroot, ← h2, h1]
  refine ⟨hroot, ?_⟩
  by_cases hdd : (relLoop (base.length + 1) base t).1 = ['.', '.']
  · rw [if_pos hdd] at hrel
    exact absurd hrel (by simp)
  rw [if_neg hdd] at hrel
  by_cases hleft : (relLoop (base.length + 1) base t).2.1 ≠ []
  · rw [if_pos hleft] at hrel
    simp only [Option.some.injEq] at hrel
    subst hrel
    rcases hacc with h | h
    · simp at h
    · rw [List.append_assoc, hasPrefix_dotdot_append] at h
      exact absurd h (by simp)
  · have hnil : (relLoop (base.length + 1) base t).2.1 = [] := by
      by_contra hx
      exact hleft hx
    have hcomp := relLoop_exhausted _ _ _ hnil
    rw [hbcomp] at hcomp
    exact ⟨_, hcomp⟩

/-! ## Joined elements and the buffer of `Clean` -/

theorem joinSep_cons (e : Str) (es : List Str) (h : es ≠ []) :
    joinSep (e :: es) = e ++ Separator :: joinSep es := by
  cases es with
  | nil => exact absurd rfl h
  | cons e2 rest => rfl

theorem joinSep_snoc (es : List Str) (e : Str) (h : es ≠ []) :
    joinSep (es ++ [e]) = joinSep es ++ Separator :: e := by
  induction es with
  | nil => exact absurd rfl h
  | cons a rest ih =>
    cases rest with
    | nil => simp [joinSep]
    | cons a2 rest2 =>
      have h2 := ih (by simp)
      rw [List.cons_append, joinSep_cons a _ (by simp), h2, joinSep_cons a _ (by simp)]
      simp

theorem joinSep_eq_nil (es : List Str) (h : ∀ e ∈ es, e ≠ []) : joinSep es = [] ↔ es = [] := by
  constructor
  · intro hj
    cases es with
    | nil => rfl
    | cons a rest =>
      exfalso
      have ha := h a (List.mem_cons_self _ _)
      cases rest with
      | nil => exact ha hj
      | cons a2 rest2 =>
        rw [joinSep_cons a _ (by simp)] at hj
        simp at hj
  · intro hes
    rw [hes]
    rfl

theorem joinSep_length_le (front : List Str) :
    ∀ (more : List Str), (joinSep front).length ≤ (joinSep (front ++ more)).length := by
  induction front with
  | nil => intro more; simp [joinSep]
  | cons a rest ih =>
    intro more
    cases rest with
    | nil =>
      cases more with
      | nil => simp
      | cons m ms =>
        rw [List.singleton_append, joinSep_cons a (m :: ms) (by simp)]
        simp [joinSep]
    | cons a2 rest2 =>
      have h2 := ih more
      rw [List.cons_append, joinSep_cons a _ (by simp), joinSep_cons a _ (by simp)]
      simp only [List.length_append, List.length_cons]
      omega

theorem renderRaw_snoc (r : Bool) (front : List Str) (e : Str) :
    renderRaw r (front ++ [e])
      = if front = [] then renderRaw r [] ++ e else renderRaw r front ++ Separator :: e := by
  unfold renderRaw
  by_cases h : front = []
  · simp [h, joinSep]
  · simp [h, joinSep_snoc front e h]

theorem renderRaw_length_le (r : Bool) (front more : List Str) :
    (renderRaw r front).length ≤ (renderRaw r (front ++ more)).length := by
  unfold renderRaw
  have := joinSep_length_le front more
  simp only [List.length_append]
  omega

/-! ## The backtracking loop -/

theorem backtrack_skip (out : Str) (dd lo : Nat) :
    ∀ (n : Nat), (∀ i, lo < i → i ≤ lo + n → dd < i ∧ out[i]? ≠ some Separator) →
      backtrack out dd (lo + n) = backtrack out dd lo := by
  intro n
  induction n with
  | zero => intro _; rfl
  | succ m ih =>
    intro h
    have hstep := h (lo + m + 1) (by omega) (by omega)
    have hrest := ih (fun i h1 h2 => h i h1 (by omega))
    have hone : backtrack out dd (lo + m + 1) = backtrack out dd (lo + m) := by
      rw [backtrack, if_pos ⟨hstep.1, hstep.2⟩]
    rw [← Nat.add_assoc, hone]
    exact hrest

theorem backtrack_stop (out : Str) (dd lo : Nat)
    (h : lo ≤ dd ∨ out[lo]? = some Separator) : backtrack out dd lo = lo := by
  cases lo with
  | zero => rfl
  | succ m =>
    unfold backtrack
    rw [if_neg]
    intro hc
    rcases h with h | h
    · omega
    · exact hc.2 h

/-- Backtracking over a last element that directly follows the `dotdot` index. -/
theorem backtrack_first (front e : Str) (dd : Nat) (hfree : ∀ c ∈ e, c ≠ Separator)
    (hne : e ≠ []) (hdd : front.length = dd) :
    (front ++ e).take (backtrack (front ++ e) dd ((front ++ e).length - 1)) = front := by
  have hlen : (front ++ e).length - 1 = front.length + (e.length - 1) := by
    have : 0 < e.length := List.length_pos.mpr hne
    simp only [List.length_append]
    omega
  rw [hlen, backtrack_skip, backtrack_stop _ _ _ (Or.inl (by omega))]
  · simp
  · intro i h1 h2
    refine ⟨by omega, ?_⟩
    have hpos : 0 < e.length := List.length_pos.mpr hne
    have hi : i - front.length < e.length := by omega
    rw [List.getElem?_append_right (by omega), List.getElem?_eq_getElem hi]
    intro hc
    exact hfree _ (List.getElem_mem hi) (Option.some.inj hc)

/-- Backtracking over a last element that follows a separator. -/
theorem backtrack_later (front e : Str) (dd : Nat) (hfree : ∀ c ∈ e, c ≠ Separator)
    (hdd : dd ≤ front.length) :
    (front ++ Separator :: e).take
        (backtrack (front ++ Separator :: e) dd ((front ++ Separator :: e).length - 1))
      = front := by
  have hlen : (front ++ Separator :: e).length - 1 = front.length + e.length := by
    simp only [List.length_append, List.length_cons]
    omega
  rw [hlen, backtrack_skip,
    backtrack_stop _ _ _ (Or.inr (by rw [List.getElem?_append_right (le_refl _)]; simp))]
  · simp
  · intro i h1 h2
    refine ⟨by omega, ?_⟩
    have hi : i - front.length - 1 < e.length := by omega
    rw [List.getElem?_append_right (by omega)]
    have hsplit : i - front.length = (i - front.length - 1) + 1 := by omega
    rw [hsplit, List.getElem?_cons_succ, List.getElem?_eq_getElem hi]
    intro hc
    exact hfree _ (List.getElem_mem hi) (Option.some.inj hc)

/-! ## The loop of `Clean` processes the components -/

theorem stackOf_elems_ne (st : Nat × List Str) (h : ∀ e ∈ st.2, NormalElem e) :
    ∀ e ∈ stackOf st, e ≠ [] := by
  intro e he
  unfold stackOf at he
  rcases List.mem_append.mp he with h1 | h1
  · rw [List.eq_of_mem_replicate h1]
    simp
  · exact (h e h1).1

theorem renderRaw_snoc_back (r : Bool) (front init : List Str) (e : Str) (dd : Nat)
    (hdd : dd = (renderRaw r front).length) (hne : e ≠ [])
    (hfree : ∀ c ∈ e, c ≠ Separator) :
    (renderRaw r (front ++ init ++ [e])).length > dd ∧
      (renderRaw r (front ++ init ++ [e])).take
          (backtrack (renderRaw r (front ++ init ++ [e])) dd
            ((renderRaw r (front ++ init ++ [e])).length - 1))
        = renderRaw r (front ++ init) := by
  have hpos : 0 < e.length := List.length_pos.mpr hne
  rw [renderRaw_snoc]
  by_cases hS : front ++ init = []
  · have hfront : front = [] := (List.append_eq_nil.mp hS).1
    rw [if_pos hS, hS]
    subst hfront
    refine ⟨?_, backtrack_first _ e dd hfree hne hdd.symm⟩
    simp only [List.length_append]
    omega
  · rw [if_neg hS]
    have hle := renderRaw_length_le r front init
    refine ⟨?_, backtrack_later _ e dd hfree (by omega)⟩
    simp only [List.length_append, List.length_cons]
    omega

theorem canon_dotdot_back (r : Bool) (st : Nat × List Str) (out : Str) (dd : Nat)
    (h : Canon r st out dd) (hns : st.2 ≠ []) :
    out.length > dd ∧
      Canon r (st.1, st.2.dropLast) (out.take (backtrack out dd (out.length - 1))) dd := by
  obtain ⟨hnorm, hroot, hout, hdd⟩ := h
  have hlast := List.dropLast_append_getLast hns
  have helem := hnorm _ (List.getLast_mem hns)
  have hform : stackOf st
      = List.replicate st.1 ['.', '.'] ++ st.2.dropLast ++ [st.2.getLast hns] := by
    unfold stackOf
    rw [List.append_assoc, hlast]
  obtain ⟨hgt, hback⟩ := renderRaw_snoc_back r (List.replicate st.1 ['.', '.']) st.2.dropLast
    (st.2.getLast hns) dd hdd helem.1 helem.2.1
  rw [hout, hform]
  refine ⟨hgt, ?_, hroot, ?_, hdd⟩
  · intro e he
    exact hnorm e (List.mem_of_mem_dropLast he)
  · rw [hback]
    rfl

theorem canon_dotdot_stuck (r : Bool) (st : Nat × List Str) (out : Str) (dd : Nat)
    (h : Canon r st out dd) (hns : st.2 = []) : ¬ out.length > dd := by
  obtain ⟨_, _, hout, hdd⟩ := h
  rw [hout, hdd]
  unfold stackOf
  rw [hns, List.append_nil]
  omega

theorem canon_dotdot_push (st : Nat × List Str) (out : Str) (dd : Nat)
    (h : Canon false st out dd) (hns : st.2 = []) :
    Canon false (st.1 + 1, st.2)
      ((if out.length > 0 then out ++ [Separator] else out) ++ ['.', '.'])
      ((if out.length > 0 then out ++ [Separator] else out) ++ ['.', '.']).length := by
  obtain ⟨hnorm, _, hout, _⟩ := h
  have hout2 : out = joinSep (List.replicate st.1 ['.', '.']) := by
    rw [hout]
    simp [renderRaw, stackOf, hns]
  have hnew : (if out.length > 0 then out ++ [Separator] else out) ++ ['.', '.']
      = renderRaw false (List.replicate (st.1 + 1) ['.', '.']) := by
    rw [List.replicate_succ', renderRaw_snoc]
    by_cases hk : st.1 = 0
    · simp [hout2, hk, renderRaw, joinSep]
    · have hrep : List.replicate st.1 ['.', '.'] ≠ [] := by
        simp [hk]
      have hlen : out.length > 0 := by
        rw [hout2]
        apply List.length_pos.mpr
        intro hnil
        rw [joinSep_eq_nil _ (by intro e he; rw [List.eq_of_mem_replicate he]; simp)] at hnil
        exact hrep hnil
      rw [if_pos hlen, if_neg hrep, hout2]
      simp [renderRaw]
  refine ⟨hnorm, by simp, ?_, ?_⟩
  · rw [hnew]
    simp [stackOf, hns]
  · rw [hnew]

theorem canon_append (r : Bool) (st : Nat × List Str) (out e : Str) (dd : Nat)
    (h : Canon r st out dd) (he : NormalElem e) :
    Canon r (st.1, st.2 ++ [e])
      ((if (r = true ∧ out.length ≠ 1) ∨ ((!r) = true ∧ out.length ≠ 0) then
          out ++ [Separator] else out) ++ e) dd := by
  obtain ⟨hnorm, hroot, hout, hdd⟩ := h
  have hne := stackOf_elems_ne st hnorm
  have hcond : ((r = true ∧ out.length ≠ 1) ∨ ((!r) = true ∧ out.length ≠ 0))
      ↔ stackOf st ≠ [] := by
    rw [hout, ← not_iff_not]
    simp only [ne_eq, not_not]
    rw [← joinSep_eq_nil _ hne]
    cases r
    · simp [renderRaw]
    · simp [renderRaw]
  refine ⟨?_, hroot, ?_, hdd⟩
  · intro x hx
    rcases List.mem_append.mp hx with h1 | h1
    · exact hnorm x h1
    · rw [List.mem_singleton.mp h1]
      exact he
  · have hstack : stackOf (st.1, st.2 ++ [e]) = stackOf st ++ [e] := by
      simp [stackOf]
    rw [hstack, renderRaw_snoc]
    by_cases hS : stackOf st = []
    · have hncond : ¬ ((r = true ∧ out.length ≠ 1) ∨ ((!r) = true ∧ out.length ≠ 0)) := by
        rw [hcond]
        simp [hS]
      rw [if_neg hncond, if_pos hS, hout, hS]
    · rw [if_pos (hcond.mpr hS), if_neg hS, hout]
      simp

theorem takeWhile_nil_iff (x : Str) :
    x.takeWhile (· ≠ Separator) = [] ↔ (x = [] ∨ x.head? = some Separator) := by
  cases x with
  | nil => simp
  | cons c rest =>
    by_cases hc : c = Separator
    · simp [hc]
    · simp [hc]

theorem components_dot (rest : Str) (h : rest = [] ∨ rest.head? = some Separator) :
    components ('.' :: rest) = components rest := by
  cases rest with
  | nil => decide
  | cons d y =>
    have hd : d = Separator := by simpa using h
    subst hd
    have h1 := components_append_sep ['.'] y (by decide)
    rw [components_cons_sep]
    simpa [elemComps] using h1

theorem components_dotdot (rest2 : Str) (h : rest2 = [] ∨ rest2.head? = some Separator) :
    components ('.' :: '.' :: rest2) = ['.', '.'] :: components rest2 := by
  cases rest2 with
  | nil => decide
  | cons d y =>
    have hd : d = Separator := by simpa using h
    subst hd
    have h1 := components_append_sep ['.', '.'] y (by decide)
    rw [components_cons_sep]
    simpa [elemComps] using h1

/-- The first element of a path that starts with neither a separator, nor a `.`
element, nor a `..` element, is a named element, and it is the first component. -/
theorem components_named (c : Char) (rest : Str) (hsep : c ≠ Separator)
    (hdot : ¬ (c = '.' ∧ (rest = [] ∨ rest.head? = some Separator)))
    (hdd : ¬ (c = '.' ∧ rest.head? = some '.' ∧
      (rest.tail = [] ∨ rest.tail.head? = some Separator))) :
    NormalElem ((c :: rest).takeWhile (· ≠ Separator)) ∧
      components (c :: rest) = (c :: rest).takeWhile (· ≠ Separator) ::
        components ((c :: rest).dropWhile (· ≠ Separator)) := by
  obtain ⟨hp, hfree, hdrop⟩ := span_sep (c :: rest)
  have htake : (c :: rest).takeWhile (· ≠ Separator) = c :: rest.takeWhile (· ≠ Separator) := by
    simp [List.takeWhile_cons, hsep]
  have hnorm : NormalElem ((c :: rest).takeWhile (· ≠ Separator)) := by
    refine ⟨by rw [htake]; simp, hfree, ?_, ?_⟩
    · rw [htake]
      intro h
      simp only [List.cons.injEq] at h
      exact hdot ⟨h.1, (takeWhile_nil_iff rest).mp h.2⟩
    · rw [htake]
      intro h
      simp only [List.cons.injEq] at h
      obtain ⟨hc, hrest⟩ := h
      apply hdd
      cases rest with
      | nil => simp at hrest
      | cons d rest2 =>
        by_cases hd : d = Separator
        · simp [hd] at hrest
        · simp only [List.takeWhile_cons, ne_eq, hd, not_false_eq_true, decide_True, if_true,
            List.cons.injEq] at hrest
          exact ⟨hc, by simp [hrest.1], by
            simpa using (takeWhile_nil_iff rest2).mp hrest.2⟩
  refine ⟨hnorm, ?_⟩
  have hcomp : elemComps ((c :: rest).takeWhile (· ≠ Separator))
      = [(c :: rest).takeWhile (· ≠ Separator)] := by
    unfold elemComps
    rw [if_pos ⟨hnorm.1, hnorm.2.2.1⟩]
  rcases hdrop with hnil | ⟨y, hy⟩
  · rw [hnil, components_nil]
    rw [hnil, List.append_nil] at hp
    rw [← hp, components_sepfree _ (by rw [hp]; exact hfree)]
    rw [hp] at hcomp ⊢
    rw [← hp] at hcomp
    exact hcomp
  · have h2 := components_append_sep _ y hfree
    rw [← hy, ← hp, hcomp] at h2
    rw [hy, components_cons_sep, h2]
    rfl

theorem cleanLoop_spec (r : Bool) :
    ∀ (fuel : Nat) (path out : Str) (dd : Nat) (st : Nat × List Str),
      path.length ≤ fuel → Canon r st out dd →
        cleanLoop r fuel path out dd
          = renderRaw r (stackOf ((components path).foldl (cleanStep r) st)) := by
  intro fuel
  induction fuel with
  | zero =>
    intro path out dd st hlen hcanon
    have hnil : path = [] := List.length_eq_zero.mp (by omega)
    subst hnil
    simp [cleanLoop, components_nil, hcanon.2.2.1]
  | succ n ih =>
    intro path out dd st hlen hcanon
    cases path with
    | nil => simp [cleanLoop, components_nil, hcanon.2.2.1]
    | cons c rest =>
      simp only [List.length_cons] at hlen
      rw [cleanLoop]
      by_cases hsep : c = Separator
      · rw [if_pos hsep, hsep, components_cons_sep]
        exact ih rest out dd st (by omega) hcanon
      rw [if_neg hsep]
      by_cases hdot : c = '.' ∧ (rest = [] ∨ rest.head? = some Separator)
      · rw [if_pos hdot, hdot.1, components_dot rest hdot.2]
        exact ih rest out dd st (by omega) hcanon
      rw [if_neg hdot]
      by_cases hdd : c = '.' ∧ rest.head? = some '.' ∧
          (rest.tail = [] ∨ rest.tail.head? = some Separator)
      · rw [if_pos hdd]
        have hrest : rest = '.' :: rest.tail := by
          cases rest with
          | nil => simp at hdd
          | cons d y => simp at hdd ⊢; exact hdd.2.1
        have hcomp : components (c :: rest) = ['.', '.'] :: components rest.tail := by
          rw [hdd.1]
          nth_rewrite 1 [hrest]
          exact components_dotdot rest.tail hdd.2.2
        have htail : rest.tail.length ≤ n := by
          have : rest.tail.length ≤ rest.length := by simp
          omega
        rw [hcomp, List.foldl_cons]
        by_cases hns : st.2 ≠ []
        · obtain ⟨hgt, hcanon2⟩ := canon_dotdot_back r st out dd hcanon hns
          have hstep : cleanStep r st ['.', '.'] = (st.1, st.2.dropLast) := by
            simp [cleanStep, hns]
          rw [if_pos hgt, hstep]
          exact ih _ _ _ _ htail hcanon2
        · have hnil : st.2 = [] := by
            by_contra hx
            exact hns hx
          rw [if_neg (canon_dotdot_stuck r st out dd hcanon hnil)]
          cases r with
          | false =>
            have hstep : cleanStep false st ['.', '.'] = (st.1 + 1, st.2) := by
              simp [cleanStep, hnil]
            simp only [Bool.not_false, if_true]
            rw [hstep]
            exact ih _ _ _ _ htail (canon_dotdot_push st out dd hcanon hnil)
          | true =>
            have hstep : cleanStep true st ['.', '.'] = st := by
              simp [cleanStep, hnil]
            simp only [Bool.not_true, Bool.false_eq_true, if_false]
            rw [hstep]
            exact ih _ _ _ _ htail hcanon
      rw [if_neg hdd]
      obtain ⟨hnorm, hcomp⟩ := components_named c rest hsep hdot hdd
      have hstep : cleanStep r st ((c :: rest).takeWhile (· ≠ Separator))
          = (st.1, st.2 ++ [(c :: rest).takeWhile (· ≠ Separator)]) := by
        unfold cleanStep
        rw [if_neg hnorm.2.2.2]
      have hlen2 : ((c :: rest).dropWhile (· ≠ Separator)).length ≤ n := by
        have h1 : (c :: rest).dropWhile (· ≠ Separator) = rest.dropWhile (· ≠ Separator) := by
          simp [List.dropWhile_cons, hsep]
        have h2 := (List.dropWhile_suffix (· ≠ Separator) (l := rest)).length_le
        rw [h1]
        omega
      rw [hcomp, List.foldl_cons, hstep]
      exact ih _ _ _ _ hlen2 (canon_append r st out _ dd hcanon hnorm)

/-! ## `Clean` as the element-wise cleaner -/

/-- The byte loop of `Clean` computes the element-wise cleaner: the components
of the path are processed in order and the resulting elements are joined. -/
theorem Clean_eq_cleanElems (p : Str) :
    Clean p = render (isRooted p) (stackOf (cleanElems (isRooted p) (components p))) := by
  unfold Clean
  by_cases hp : p = []
  · rw [if_pos hp, hp]
    decide
  rw [if_neg hp]
  simp only
  by_cases hroot : p.head? = some Separator
  · have hr : isRooted p = true := by simp [isRooted, hroot]
    have hcanon : Canon true (0, []) [Separator] 1 := by
      refine ⟨by simp, by simp, ?_, ?_⟩ <;> simp [renderRaw, stackOf, joinSep]
    have hpt : p = Separator :: p.tail := by
      cases p with
      | nil => exact absurd rfl hp
      | cons c rest => simp at hroot ⊢; exact hroot
    have hcomp : components p = components p.tail := by
      nth_rewrite 1 [hpt]
      exact components_cons_sep _
    have hlen : p.tail.length ≤ p.length := by simp
    have hloop := cleanLoop_spec true p.length p.tail [Separator] 1 (0, []) hlen hcanon
    simp only [hroot, decide_True, if_true]
    rw [hloop, hr, ← hcomp]
    unfold render cleanElems
    simp only [List.length_eq_zero]
  · have hr : isRooted p = false := by simp [isRooted, hroot]
    have hcanon : Canon false (0, []) [] 0 := by
      refine ⟨by simp, by simp, ?_, ?_⟩ <;> simp [renderRaw, stackOf, joinSep]
    have hloop := cleanLoop_spec false p.length p [] 0 (0, []) (le_refl _) hcanon
    simp only [hroot, decide_False, if_false]
    rw [hloop, hr]
    unfold render cleanElems
    simp only [List.length_eq_zero]

theorem splitSep_elems_sepfree (p : Str) : ∀ e ∈ splitSep p, ∀ c ∈ e, c ≠ Separator := by
  induction p with
  | nil => simp [splitSep]
  | cons d rest ih =>
    intro e he
    unfold splitSep at he
    by_cases hd : d = Separator
    · rw [if_pos hd] at he
      rcases List.mem_cons.mp he with h | h
      · rw [h]; simp
      · exact ih e h
    · rw [if_neg hd] at he
      rcases List.mem_cons.mp he with h | h
      · rw [h]
        intro c hc
        rcases List.mem_cons.mp hc with h1 | h1
        · rw [h1]; exact hd
        · cases hs : splitSep rest with
          | nil => rw [hs] at h1; simp at h1
          | cons a as =>
            rw [hs] at h1
            exact ih a (by rw [hs]; exact List.mem_cons_self _ _) c (by simpa using h1)
      · exact ih e (List.mem_of_mem_tail h)

theorem components_elems (p : Str) :
    ∀ e ∈ components p, e = ['.', '.'] ∨ NormalElem e := by
  intro e he
  unfold components at he
  obtain ⟨hmem, hprop⟩ := List.mem_filter.mp he
  have hprop2 : e ≠ [] ∧ e ≠ ['.'] := by simpa using hprop
  by_cases hdd : e = ['.', '.']
  · exact Or.inl hdd
  · exact Or.inr ⟨hprop2.1, splitSep_elems_sepfree p e hmem, hprop2.2, hdd⟩

theorem cleanStep_canon (r : Bool) (st : Nat × List Str) (e : Str) (h : CanonSt r st)
    (he : e = ['.', '.'] ∨ NormalElem e) : CanonSt r (cleanStep r st e) := by
  obtain ⟨hnorm, hroot⟩ := h
  unfold cleanStep
  by_cases hdd : e = ['.', '.']
  · rw [if_pos hdd]
    by_cases hns : st.2 ≠ []
    · rw [if_pos hns]
      exact ⟨fun x hx => hnorm x (List.mem_of_mem_dropLast hx), hroot⟩
    · rw [if_neg hns]
      cases r with
      | true => simpa using ⟨hnorm, hroot⟩
      | false => exact ⟨hnorm, by simp⟩
  · rw [if_neg hdd]
    refine ⟨?_, hroot⟩
    intro x hx
    rcases List.mem_append.mp hx with h1 | h1
    · exact hnorm x h1
    · rw [List.mem_singleton.mp h1]
      rcases he with he | he
      · exact absurd he hdd
      · exact he

theorem foldl_cleanStep_canon (r : Bool) :
    ∀ (comps : List Str) (st : Nat × List Str), CanonSt r st →
      (∀ e ∈ comps, e = ['.', '.'] ∨ NormalElem e) →
        CanonSt r (comps.foldl (cleanStep r) st) := by
  intro comps
  induction comps with
  | nil => intro st h _; exact h
  | cons e rest ih =>
    intro st h hall
    rw [List.foldl_cons]
    exact ih _ (cleanStep_canon r st e h (hall e (List.mem_cons_self _ _)))
      (fun x hx => hall x (List.mem_cons_of_mem _ hx))

theorem cleanElems_canon (p : Str) (r : Bool) : CanonSt r (cleanElems r (components p)) :=
  foldl_cleanStep_canon r _ _ ⟨by simp, by simp⟩ (components_elems p)

/-! ## Components of a cleaned path -/

theorem components_joinSep :
    ∀ (es : List Str), (∀ e ∈ es, e ≠ [] ∧ (∀ c ∈ e, c ≠ Separator) ∧ e ≠ ['.']) →
      components (joinSep es) = es := by
  intro es
  induction es with
  | nil => intro _; exact components_nil
  | cons a rest ih =>
    intro h
    have ha := h a (List.mem_cons_self _ _)
    have hel : elemComps a = [a] := by
      unfold elemComps
      rw [if_pos ⟨ha.1, ha.2.2⟩]
    cases rest with
    | nil =>
      rw [joinSep, components_sepfree a ha.2.1, hel]
    | cons a2 rest2 =>
      rw [joinSep_cons a _ (by simp), components_append_sep a _ ha.2.1, hel,
        ih (fun x hx => h x (List.mem_cons_of_mem _ hx))]
      rfl

theorem stackOf_elems (r : Bool) (st : Nat × List Str) (h : CanonSt r st) :
    ∀ e ∈ stackOf st, e ≠ [] ∧ (∀ c ∈ e, c ≠ Separator) ∧ e ≠ ['.'] := by
  intro e he
  unfold stackOf at he
  rcases List.mem_append.mp he with h1 | h1
  · rw [List.eq_of_mem_replicate h1]
    decide
  · exact ⟨(h.1 e h1).1, (h.1 e h1).2.1, (h.1 e h1).2.2.1⟩

theorem renderRaw_eq_nil (r : Bool) (es : List Str) (h : ∀ e ∈ es, e ≠ []) :
    renderRaw r es = [] ↔ (r = false ∧ es = []) := by
  unfold renderRaw
  cases r
  · simpa using joinSep_eq_nil es h
  · simp

theorem components_render (r : Bool) (es : List Str)
    (h : ∀ e ∈ es, e ≠ [] ∧ (∀ c ∈ e, c ≠ Separator) ∧ e ≠ ['.']) :
    components (render r es) = es := by
  unfold render
  by_cases hnil : renderRaw r es = []
  · rw [if_pos hnil]
    rw [renderRaw_eq_nil r es (fun e he => (h e he).1)] at hnil
    rw [hnil.2]
    decide
  · rw [if_neg hnil]
    unfold renderRaw
    cases r
    · simpa using components_joinSep es h
    · simp only [if_true, List.singleton_append]
      rw [components_cons_sep]
      exact components_joinSep es h

theorem isRooted_render (r : Bool) (es : List Str)
    (h : ∀ e ∈ es, e ≠ [] ∧ (∀ c ∈ e, c ≠ Separator) ∧ e ≠ ['.']) :
    isRooted (render r es) = r := by
  unfold render
  by_cases hnil : renderRaw r es = []
  · rw [if_pos hnil]
    rw [renderRaw_eq_nil r es (fun e he => (h e he).1)] at hnil
    rw [hnil.1]
    decide
  · rw [if_neg hnil]
    unfold renderRaw isRooted
    cases r
    · cases es with
      | nil => simp [joinSep]
      | cons a rest =>
        have ha := h a (List.mem_cons_self _ _)
        cases a with
        | nil => exact absurd rfl ha.1
        | cons c cs =>
          have hc : c ≠ Separator := ha.2.1 c (List.mem_cons_self _ _)
          cases rest with
          | nil => simp [joinSep, hc]
          | cons a2 rest2 => simp [joinSep, hc]
    · simp

/-! ## `Clean` is idempotent -/

theorem foldl_cleanStep_dotdots (st : Nat × List Str) (hns : st.2 = []) :
    ∀ (k : Nat), (List.replicate k ['.', '.']).foldl (cleanStep false) st = (st.1 + k, st.2) := by
  intro k
  induction k generalizing st with
  | zero => rfl
  | succ n ih =>
    have hstep : cleanStep false st ['.', '.'] = (st.1 + 1, st.2) := by
      simp [cleanStep, hns]
    rw [List.replicate_succ, List.foldl_cons, hstep, ih (st.1 + 1, st.2) hns]
    simp only [Prod.mk.injEq, and_true]
    omega

theorem foldl_cleanStep_named (r : Bool) :
    ∀ (ns : List Str) (st : Nat × List Str), (∀ e ∈ ns, NormalElem e) →
      ns.foldl (cleanStep r) st = (st.1, st.2 ++ ns) := by
  intro ns
  induction ns with
  | nil => intro st _; simp
  | cons e rest ih =>
    intro st h
    have hstep : cleanStep r st e = (st.1, st.2 ++ [e]) := by
      unfold cleanStep
      rw [if_neg (h e (List.mem_cons_self _ _)).2.2.2]
    rw [List.foldl_cons, hstep, ih _ (fun x hx => h x (List.mem_cons_of_mem _ hx))]
    simp

/-- The element-wise cleaner leaves the elements of a reached state as they
are. -/
theorem cleanElems_stackOf (r : Bool) (st : Nat × List Str) (h : CanonSt r st) :
    cleanElems r (stackOf st) = st := by
  obtain ⟨hnorm, hroot⟩ := h
  unfold cleanElems stackOf
  rw [List.foldl_append]
  cases r with
  | true =>
    have hk : st.1 = 0 := hroot rfl
    rw [hk, List.replicate_zero, List.foldl_nil, foldl_cleanStep_named true st.2 _ hnorm]
    simp [← hk]
  | false =>
    rw [foldl_cleanStep_dotdots (0, []) rfl st.1, foldl_cleanStep_named false st.2 _ hnorm]
    simp

theorem Clean_idem (p : Str) : Clean (Clean p) = Clean p := by
  have hcanon := cleanElems_canon p (isRooted p)
  have helems := stackOf_elems (isRooted p) _ hcanon
  have hform := Clean_eq_cleanElems p
  rw [Clean_eq_cleanElems (Clean p)]
  rw [hform, isRooted_render _ _ helems, components_render _ _ helems,
    cleanElems_stackOf _ _ hcanon]

/-- A path that `Clean` leaves unchanged is determined by its rootedness and its
components. -/
theorem Clean_fixed_form (p : Str) (h : Clean p = p) :
    p = render (isRooted p) (components p) := by
  have hcanon := cleanElems_canon p (isRooted p)
  have helems := stackOf_elems (isRooted p) _ hcanon
  have hform := Clean_eq_cleanElems p
  rw [h] at hform
  have hcomp : components p = stackOf (cleanElems (isRooted p) (components p)) := by
    nth_rewrite 1 [hform]
    exact components_render _ _ helems
  rw [hcomp]
  exact hform

theorem Clean_ne_nil (p : Str) : Clean p ≠ [] := by
  rw [Clean_eq_cleanElems]
  unfold render
  split
  · simp
  · assumption

/-- The query path, cleaned and absolutized, is a path that `Clean` leaves
unchanged. -/
theorem cleanAbs_fixed (sys : Sys) (path : Str) :
    Clean (cleanAbs sys path) = cleanAbs sys path := by
  unfold cleanAbs
  simp only
  by_cases habs : IsAbs (Clean path) = true
  · simp only [habs, Bool.not_true, Bool.false_eq_true, if_false]
    exact Clean_idem path
  · simp only [habs, Bool.not_false, if_true]
    unfold Abs
    simp only [habs, if_false]
    cases hwd : sys.getwd with
    | none => exact Clean_idem path
    | some wd =>
      simp only
      unfold Join
      by_cases hw : wd ≠ []
      · rw [if_pos hw]
        exact Clean_idem _
      · rw [if_neg hw, if_pos (Clean_ne_nil path)]
        exact Clean_idem _

/-- An accepted relation between two different cleaned paths makes the base a
proper ancestor of the target. -/
theorem Rel_accepts_ancestor (b t rel : Str) (hb : Clean b = b) (ht : Clean t = t)
    (hne : b ≠ t) (hrel : Rel b t = some rel)
    (hacc : rel = ['.'] ∨ HasPrefix rel ['.', '.'] = false) : properAncestor b t = true := by
  rcases Rel_accepts b t rel hb ht hrel hacc with h | ⟨hroot, extra, hextra⟩
  · exact absurd h hne
  · have hextra_ne : extra ≠ [] := by
      intro hnil
      apply hne
      rw [hnil, List.append_nil] at hextra
      rw [Clean_fixed_form b hb, Clean_fixed_form t ht, hroot, hextra]
    unfold properAncestor
    have hpre : (components b).isPrefixOf (components t) = true := by
      rw [List.isPrefixOf_iff_prefix, hextra]
      exact List.prefix_append _ _
    have hlen : (components b).length < (components t).length := by
      rw [hextra, List.length_append]
      have := List.length_pos.mpr hextra_ne
      omega
    simp [hroot, hpre, hlen]

/-! ## Granted queries -/

/-- A query the loop allows is allowed by one rule: it grants the operation, and
its path is the query path or the relation to the query path is accepted. -/
theorem isAllowedLoop_true (op : Permission) (cleanTarget : Str) :
    ∀ (rules : List PathRule), isAllowedLoop op cleanTarget rules = .returned true →
      ∃ r ∈ rules, r.parsedPerms &&& op ≠ 0 ∧
        (r.cleanPath = cleanTarget ∨
          (r.cleanPath ≠ cleanTarget ∧ r.AllowSubpaths = some true ∧
            ∃ rel, Rel r.cleanPath cleanTarget = some rel ∧
              (rel = ['.'] ∨ HasPrefix rel ['.', '.'] = false))) := by
  intro rules
  induction rules with
  | nil => intro h; simp [isAllowedLoop] at h
  | cons r rest ih =>
    intro h
    have hlater : isAllowedLoop op cleanTarget rest = .returned true →
        ∃ q ∈ r :: rest, q.parsedPerms &&& op ≠ 0 ∧
          (q.cleanPath = cleanTarget ∨
            (q.cleanPath ≠ cleanTarget ∧ q.AllowSubpaths = some true ∧
              ∃ rel, Rel q.cleanPath cleanTarget = some rel ∧
                (rel = ['.'] ∨ HasPrefix rel ['.', '.'] = false))) := by
      intro hrest
      obtain ⟨q, hq, hprop⟩ := ih hrest
      exact ⟨q, List.mem_cons_of_mem _ hq, hprop⟩
    rw [isAllowedLoop] at h
    by_cases hmask : r.parsedPerms &&& op = 0
    · rw [if_pos hmask] at h
      exact hlater h
    rw [if_neg hmask] at h
    by_cases hexact : r.cleanPath = cleanTarget
    · exact ⟨r, List.mem_cons_self _ _, hmask, Or.inl hexact⟩
    rw [if_neg hexact] at h
    cases hflag : r.AllowSubpaths with
    | none => rw [hflag] at h; simp at h
    | some b =>
      rw [hflag] at h
      cases b with
      | false => exact hlater h
      | true =>
        simp only at h
        cases hrel : Rel r.cleanPath cleanTarget with
        | none => rw [hrel] at h; exact hlater h
        | some rel =>
          rw [hrel] at h
          simp only at h
          by_cases hdot : rel = ['.']
          · exact ⟨r, List.mem_cons_self _ _, hmask,
              Or.inr ⟨hexact, hflag, rel, hrel, Or.inl hdot⟩⟩
          rw [if_neg hdot] at h
          by_cases hpre : HasPrefix rel ['.', '.'] = true
          · rw [if_pos hpre] at h
            exact hlater h
          · exact ⟨r, List.mem_cons_self _ _, hmask,
              Or.inr ⟨hexact, hflag, rel, hrel, Or.inr (by simpa using hpre)⟩⟩

theorem parseRule_cleanPath (sys : Sys) (r r1 : PathRule) (h : parseRule sys r = .ok r1) :
    r1.cleanPath = cleanAbs sys r.Path := by
  unfold parseRule at h
  simp only at h
  split at h
  · simp only [Except.ok.injEq] at h
    rw [← h]
  · split at h
    · simp at h
    · simp only [Except.ok.injEq] at h
      rw [← h]

theorem parseRules_mem (sys : Sys) :
    ∀ (rs rs1 : List PathRule), parseRules sys rs = .ok rs1 →
      ∀ r1 ∈ rs1, ∃ r ∈ rs, parseRule sys r = .ok r1 := by
  intro rs
  induction rs with
  | nil =>
    intro rs1 h r1 hr1
    simp only [parseRules, Except.ok.injEq] at h
    rw [← h] at hr1
    simp at hr1
  | cons a rest ih =>
    intro rs1 h r1 hr1
    unfold parseRules at h
    cases ha : parseRule sys a with
    | error e => rw [ha] at h; simp at h
    | ok a1 =>
      rw [ha] at h
      cases hrest : parseRules sys rest with
      | error e => rw [hrest] at h; simp at h
      | ok rest1 =>
        rw [hrest] at h
        simp only [Except.ok.injEq] at h
        rw [← h] at hr1
        rcases List.mem_cons.mp hr1 with h1 | h1
        · exact ⟨a, List.mem_cons_self _ _, by rw [h1]; exact ha⟩
        · obtain ⟨r, hr, hres⟩ := ih rest1 hrest r1 h1
          exact ⟨r, List.mem_cons_of_mem _ hr, hres⟩

/-- Every rule of a loaded configuration has a `cleanPath` that `Clean` leaves
unchanged. -/
theorem loaded_cleanPath_fixed (sys : Sys) (data : List Nat) (doc cfg : Config)
    (hdoc : sys.yamlUnmarshal data = .ok doc) (h : ParseConfigData sys data = .ok cfg) :
    ∀ r ∈ cfg.Paths, Clean r.cleanPath = r.cleanPath := by
  intro r1 hr1
  obtain ⟨r, _, hres⟩ := parseRules_mem sys _ _ (ParseConfigData_ok sys data doc cfg hdoc h) r1 hr1
  rw [parseRule_cleanPath sys r r1 hres]
  exact cleanAbs_fixed sys _

/-! ## Environment expansion and masks: supporting lemmas -/

/-- Fuel is adequate for the loop of `os.Expand`: any two amounts of at least the
length of the input give the same result. -/
theorem expandLoop_fuel (mapping : Str → Str) :
    ∀ (fuel1 fuel2 : Nat) (s : Str), s.length ≤ fuel1 → s.length ≤ fuel2 →
      os.expandLoop mapping fuel1 s = os.expandLoop mapping fuel2 s := by
  intro fuel1
  induction fuel1 with
  | zero =>
    intro fuel2 s h1 _
    have hs : s = [] := List.length_eq_zero.mp (by omega)
    subst hs
    cases fuel2 <;> simp [os.expandLoop]
  | succ n ih =>
    intro fuel2 s h1 h2
    cases s with
    | nil => cases fuel2 <;> simp [os.expandLoop]
    | cons c rest =>
      cases fuel2 with
      | zero => simp at h2
      | succ m =>
        simp only [List.length_cons] at h1 h2
        have hdrop : ∀ w, (rest.drop w).length ≤ rest.length := by
          intro w
          rw [List.length_drop]
          omega
        simp only [os.expandLoop]
        rw [ih m rest (by omega) (by omega),
          ih m (rest.drop (os.getShellName rest).2) (by have := hdrop (os.getShellName rest).2; omega)
            (by have := hdrop (os.getShellName rest).2; omega)]

theorem parseRule_Path (sys : Sys) (r r1 : PathRule) (h : parseRule sys r = .ok r1) :
    r1.Path = r.Path := by
  unfold parseRule at h
  simp only at h
  split at h
  · simp only [Except.ok.injEq] at h
    rw [← h]
  · split at h
    · simp at h
    · simp only [Except.ok.injEq] at h
      rw [← h]

theorem parseRule_error_form (sys : Sys) (r : PathRule) (e : ConfigError)
    (h : parseRule sys r = .error e) : ∃ path inner, e = .invalidPerms path inner := by
  unfold parseRule at h
  simp only at h
  split at h
  · simp at h
  · split at h
    · simp only [Except.error.injEq] at h
      exact ⟨_, _, h.symm⟩
    · simp at h

theorem parseRules_error_form (sys : Sys) :
    ∀ (rs : List PathRule) (e : ConfigError), parseRules sys rs = .error e →
      ∃ path inner, e = .invalidPerms path inner := by
  intro rs
  induction rs with
  | nil => intro e h; simp [parseRules] at h
  | cons a rest ih =>
    intro e h
    unfold parseRules at h
    cases ha : parseRule sys a with
    | error e1 =>
      rw [ha] at h
      simp only [Except.error.injEq] at h
      rw [← h]
      exact parseRule_error_form sys a e1 ha
    | ok a1 =>
      rw [ha] at h
      cases hrest : parseRules sys rest with
      | error e1 =>
        rw [hrest] at h
        simp only [Except.error.injEq] at h
        rw [← h]
        exact ih e1 hrest
      | ok rest1 => rw [hrest] at h; simp at h

/-- The expansion pass never makes the load fail. -/
theorem ParseConfigData_no_expand_error (sys : Sys) (data : List Nat) (inner : ConfigError) :
    ParseConfigData sys data ≠ .error (.expandEnv inner) := by
  intro h
  unfold ParseConfigData at h
  cases hdoc : sys.yamlUnmarshal data with
  | error msg => rw [hdoc] at h; simp at h
  | ok doc =>
    rw [hdoc] at h
    simp only [expandEnvInValue] at h
    split at h
    · rename_i err herr
      simp only [Except.error.injEq] at h
      obtain ⟨path, inner2, hform⟩ := parseRules_error_form sys _ err herr
      rw [hform] at h
      simp at h
    · simp at h

/-- Every rule of a loaded configuration has its `AllowSubpaths` pointer set. -/
theorem loaded_allowSubpaths_set (sys : Sys) (data : List Nat) (doc cfg : Config)
    (hdoc : sys.yamlUnmarshal data = .ok doc) (h : ParseConfigData sys data = .ok cfg) :
    ∀ r ∈ cfg.Paths, r.AllowSubpaths ≠ none := by
  intro r1 hr1
  obtain ⟨r, hr, hres⟩ :=
    parseRules_mem sys _ _ (ParseConfigData_ok sys data doc cfg hdoc h) r1 hr1
  obtain ⟨r0, _, rfl⟩ := List.mem_map.mp hr
  rw [parseRule_allowSubpaths sys r0 r1 hres]
  simp

/-- Every rule of a loaded configuration has the query form of its own path as
its `cleanPath`. -/
theorem loaded_cleanPath_own (sys : Sys) (data : List Nat) (doc cfg : Config)
    (hdoc : sys.yamlUnmarshal data = .ok doc) (h : ParseConfigData sys data = .ok cfg) :
    ∀ r ∈ cfg.Paths, r.cleanPath = cleanAbs sys r.Path := by
  intro r1 hr1
  obtain ⟨r, _, hres⟩ :=
    parseRules_mem sys _ _ (ParseConfigData_ok sys data doc cfg hdoc h) r1 hr1
  rw [parseRule_cleanPath sys r r1 hres, parseRule_Path sys r r1 hres]

/-- What the expansion pass does to every field of the configuration. -/
theorem expandEnvInValue_fields (sys : Sys) (cfg : Config) :
    ∃ cfg1, expandEnvInValue sys cfg = .ok cfg1 ∧
      cfg1.Version = sys.expandEnv cfg.Version ∧ cfg1.LogLevel = sys.expandEnv cfg.LogLevel ∧
      cfg1.LogPath = sys.expandEnv cfg.LogPath ∧
      ∀ (i : Nat) (r : PathRule), cfg.Paths[i]? = some r →
        ∃ r1, cfg1.Paths[i]? = some r1 ∧ r1.Path = sys.expandEnv r.Path ∧
          r1.Description = sys.expandEnv r.Description ∧
          r1.Perms = r.Perms.map sys.expandEnv ∧ r1.parsedPerms = r.parsedPerms ∧
          r1.cleanPath = r.cleanPath ∧
          r1.AllowSubpaths = some (r.AllowSubpaths.getD false) := by
  refine ⟨_, rfl, rfl, rfl, rfl, ?_⟩
  intro i r hr
  refine ⟨expandEnvPathRule sys r, by simp [List.getElem?_map, hr], rfl, rfl, rfl, rfl, rfl, ?_⟩
  cases hflag : r.AllowSubpaths <;> simp [expandEnvPathRule, expandEnvBoolPtr, hflag]

theorem lor_eq_zero_iff (x y : Nat) : x ||| y = 0 ↔ x = 0 ∧ y = 0 := by
  constructor
  · intro h
    have hbit : ∀ i, (x.testBit i || y.testBit i) = false := by
      intro i
      rw [← Nat.testBit_or, h, Nat.zero_testBit]
    constructor
    · apply Nat.eq_of_testBit_eq
      intro i
      have := hbit i
      rw [Nat.zero_testBit]
      cases hx : x.testBit i <;> simp_all
    · apply Nat.eq_of_testBit_eq
      intro i
      have := hbit i
      rw [Nat.zero_testBit]
      cases hy : y.testBit i <;> simp_all
  · rintro ⟨hx, hy⟩
    rw [hx, hy]
    rfl

/-- A rule grants a combined operation exactly when it grants one of its parts. -/
theorem grantsOp_lor (r : PathRule) (a b : Permission) :
    grantsOp r (a ||| b) = (grantsOp r a || grantsOp r b) := by
  unfold grantsOp
  rw [Nat.and_or_distrib_left, Bool.eq_iff_iff]
  simp only [bne_iff_ne, ne_eq, Bool.or_eq_true]
  rw [lor_eq_zero_iff]
  tauto

theorem any_or {α : Type} (f g : α → Bool) (xs : List α) :
    (xs.any fun x => f x || g x) = (xs.any f || xs.any g) := by
  induction xs with
  | nil => rfl
  | cons x rest ih =>
    simp only [List.any_cons, ih]
    cases f x <;> cases g x <;> cases rest.any f <;> cases rest.any g <;> rfl

/-! ## The claims -/

/-- C1 (the code departs from the claim): a rule declared without
`allow_subpaths` is loaded with its flag pointing to `false`, because the
environment expansion pass allocates the nil pointer before the default is
applied. For the document with the single rule `path: /a` and `perms: [read]`,
the loaded flag is `some false` and a `Read` query on `/a/c` is denied. -/
theorem C1_unset_allow_subpaths_loads_false :
    ∃ cfg, ParseConfigData (fixtureSys (declDoc [declRule "/a" ["read"] none])) [] = .ok cfg ∧
      cfg.Paths.map (·.AllowSubpaths) = [some false] ∧
      IsAllowed (fixtureSys (declDoc [declRule "/a" ["read"] none])) (some cfg) PermRead
        "/a/c".toList = .returned false ∧
      IsAllowed (fixtureSys (declDoc [declRule "/a" ["read"] none])) (some cfg) PermRead
        "/a".toList = .returned true :=
  ⟨_, rfl, by decide, by decide, by decide⟩

/-- C2: `IsAllowed` never grants by a path outside a rule. On a rule set whose
granting rules have a cleaned `cleanPath` (as every loaded rule has), a query
that returns true has a rule that grants the operation and whose `cleanPath` is the cleaned
query path or, with the subpath flag true, a proper ancestor of it
component-wise. For the single rule `/a/b` with subpaths allowed, the queries
on `/a/bc`, `/a` and `/a/b/../../etc` are denied. -/
theorem C2_no_overgrant_by_path (sys : Sys) :
    (∀ (cfg : Config) (op : Permission) (target : Str),
      (∀ r ∈ cfg.Paths, r.parsedPerms &&& op ≠ 0 → Clean r.cleanPath = r.cleanPath) →
      IsAllowed sys (some cfg) op target = .returned true →
      ∃ r ∈ cfg.Paths, r.parsedPerms &&& op ≠ 0 ∧
        (r.cleanPath = cleanAbs sys target ∨
          (r.AllowSubpaths = some true ∧
            properAncestor r.cleanPath (cleanAbs sys target) = true))) ∧
      IsAllowed sys (some (declDoc [canonRule "/a/b" PermRead (some true)])) PermRead
        "/a/bc".toList = .returned false ∧
      IsAllowed sys (some (declDoc [canonRule "/a/b" PermRead (some true)])) PermRead
        "/a".toList = .returned false ∧
      IsAllowed sys (some (declDoc [canonRule "/a/b" PermRead (some true)])) PermRead
        "/a/b/../../etc".toList = .returned false := by
  refine ⟨?_, ?_, ?_, ?_⟩
  · intro cfg op target hclean hallow
    obtain ⟨r, hr, hmask, hmatch⟩ := isAllowedLoop_true op (cleanAbs sys target) cfg.Paths hallow
    refine ⟨r, hr, hmask, ?_⟩
    rcases hmatch with hexact | ⟨hne, hflag, rel, hrel, hacc⟩
    · exact Or.inl hexact
    · exact Or.inr ⟨hflag, Rel_accepts_ancestor _ _ rel (hclean r hr hmask)
        (cleanAbs_fixed sys target) hne hrel hacc⟩
  · have htarget : cleanAbs sys "/a/bc".toList = "/a/bc".toList :=
      cleanAbs_of_abs sys _ (by decide) (by decide)
    unfold IsAllowed
    simp only [htarget]
    decide
  · have htarget : cleanAbs sys "/a".toList = "/a".toList :=
      cleanAbs_of_abs sys _ (by decide) (by decide)
    unfold IsAllowed
    simp only [htarget]
    decide
  · have htarget : cleanAbs sys "/a/b/../../etc".toList = "/etc".toList := by
      rw [cleanAbs_of_rooted sys _ (by decide)]
      decide
    unfold IsAllowed
    simp only [htarget]
    decide

theorem C2_no_overgrant_by_path_witness :
    ∃ r ∈ [canonRule "/a/b" PermRead (some true)], r.parsedPerms &&& PermRead ≠ 0 ∧
      (r.cleanPath = cleanAbs (fixtureSys (declDoc [])) "/a/b/c/d".toList ∨
        (r.AllowSubpaths = some true ∧
          properAncestor r.cleanPath (cleanAbs (fixtureSys (declDoc [])) "/a/b/c/d".toList)
            = true)) :=
  (C2_no_overgrant_by_path (fixtureSys (declDoc []))).1
    (declDoc [canonRule "/a/b" PermRead (some true)]) PermRead "/a/b/c/d".toList
    (by decide) (by decide)

/-- C3 (the code departs from the claim): the test `strings.HasPrefix(rel, "..")`
also rejects a relation whose first component merely begins with two dots. The
cleaned absolute path `/a/b/..c` strictly descends from `/a/b`, the rule on
`/a/b` grants Read with subpaths allowed, and the Read query is denied, for
every environment; the query on `/a/b/c` is allowed. -/
theorem C3_descendant_with_dotted_name_denied (sys : Sys) :
    Clean "/a/b/..c".toList = "/a/b/..c".toList ∧ IsAbs "/a/b/..c".toList = true ∧
      properAncestor "/a/b".toList "/a/b/..c".toList = true ∧
      components "/a/b/..c".toList = components "/a/b".toList ++ ["..c".toList] ∧
      Rel "/a/b".toList "/a/b/..c".toList = some "..c".toList ∧
      IsAllowed sys (some (declDoc [canonRule "/a/b" PermRead (some true)])) PermRead
        "/a/b/..c".toList = .returned false ∧
      IsAllowed sys (some (declDoc [canonRule "/a/b" PermRead (some true)])) PermRead
        "/a/b/c".toList = .returned true := by
  refine ⟨by decide, by decide, by decide, by decide, by decide, ?_, ?_⟩
  · have htarget : cleanAbs sys "/a/b/..c".toList = "/a/b/..c".toList :=
      cleanAbs_of_abs sys _ (by decide) (by decide)
    unfold IsAllowed
    simp only [htarget]
    decide
  · have htarget : cleanAbs sys "/a/b/c".toList = "/a/b/c".toList :=
      cleanAbs_of_abs sys _ (by decide) (by decide)
    unfold IsAllowed
    simp only [htarget]
    decide

/-- C4: in a loaded configuration, a rule declared with an empty or absent
`perms` list has the mask `PermRead` exactly: it grants Read and neither Write
nor Exec. -/
theorem C4_empty_perms_read_only (sys : Sys) (data : List Nat) (doc cfg : Config)
    (hdoc : sys.yamlUnmarshal data = .ok doc) (hload : ParseConfigData sys data = .ok cfg)
    (i : Nat) (r : PathRule) (hr : doc.Paths[i]? = some r) (hperms : r.Perms = []) :
    ∃ r1, cfg.Paths[i]? = some r1 ∧ r1.parsedPerms = PermRead ∧
      r1.parsedPerms &&& PermRead ≠ 0 ∧ r1.parsedPerms &&& PermWrite = 0 ∧
      r1.parsedPerms &&& PermExec = 0 := by
  obtain ⟨r1, h1, h2⟩ := ParseConfigData_rule sys data doc cfg hdoc hload i r hr
  have hmask : r1.parsedPerms = PermRead := by
    unfold parseRule at h2
    simp only [expandEnvPathRule, expandEnvStrings, hperms, List.map_nil, List.length_nil,
      if_true, Except.ok.injEq] at h2
    rw [← h2]
  refine ⟨r1, h1, hmask, ?_, ?_, ?_⟩ <;> rw [hmask] <;> decide

theorem C4_empty_perms_read_only_witness :
    ∃ r1, ([canonRule "/a" PermRead (some false)] : List PathRule)[0]? = some r1 ∧
      r1.parsedPerms = PermRead ∧ r1.parsedPerms &&& PermRead ≠ 0 ∧
      r1.parsedPerms &&& PermWrite = 0 ∧ r1.parsedPerms &&& PermExec = 0 :=
  C4_empty_perms_read_only (fixtureSys (declDoc [declRule "/a" [] none])) []
    (declDoc [declRule "/a" [] none])
    { declDoc [canonRule "/a" PermRead (some false)] with Version := ConfigVersionV1 }
    rfl rfl 0 (declRule "/a" [] none) rfl rfl

/-- C5: for a rule set of one rule that grants the operation and has its
subpath flag false, `IsAllowed` returns true exactly when the cleaned,
absolutized query path equals the rule's `cleanPath`, and false otherwise. -/
theorem C5_exact_match_only (sys : Sys) (cfg : Config) (r : PathRule) (op : Permission)
    (target : Str) (hone : cfg.Paths = [r]) (hflag : r.AllowSubpaths = some false)
    (hgrant : r.parsedPerms &&& op ≠ 0) :
    (IsAllowed sys (some cfg) op target = .returned true ↔ cleanAbs sys target = r.cleanPath) ∧
      (IsAllowed sys (some cfg) op target = .returned false ↔
        cleanAbs sys target ≠ r.cleanPath) := by
  unfold IsAllowed
  simp only [hone]
  rw [isAllowedLoop, if_neg hgrant]
  by_cases hexact : r.cleanPath = cleanAbs sys target
  · simp [hexact]
  · have hne : cleanAbs sys target ≠ r.cleanPath := fun h => hexact h.symm
    simp [hexact, hflag, isAllowedLoop, hne]

theorem C5_exact_match_only_witness :
    IsAllowed (fixtureSys (declDoc [])) (some (declDoc [canonRule "/a/b" PermWrite (some false)]))
        PermWrite "/a/b".toList = .returned true ∧
      IsAllowed (fixtureSys (declDoc [])) (some (declDoc [canonRule "/a/b" PermWrite (some false)]))
        PermWrite "/a/b/c".toList = .returned false :=
  ⟨(C5_exact_match_only (fixtureSys (declDoc []))
      (declDoc [canonRule "/a/b" PermWrite (some false)])
      (canonRule "/a/b" PermWrite (some false)) PermWrite "/a/b".toList rfl rfl
      (by decide)).1.mpr (by decide),
    (C5_exact_match_only (fixtureSys (declDoc []))
      (declDoc [canonRule "/a/b" PermWrite (some false)])
      (canonRule "/a/b" PermWrite (some false)) PermWrite "/a/b/c".toList rfl rfl
      (by decide)).2.mpr (by decide)⟩

/-- C6: when no rule's mask has a bit in common with the operation, `IsAllowed`
returns false, whatever the paths of the rules and the query. -/
theorem C6_operation_gating (sys : Sys) (cfg : Config) (op : Permission) (target : Str)
    (hnone : ∀ r ∈ cfg.Paths, r.parsedPerms &&& op = 0) :
    IsAllowed sys (some cfg) op target = .returned false :=
  isAllowedLoop_no_grant op (cleanAbs sys target) cfg.Paths hnone

theorem C6_operation_gating_witness :
    IsAllowed (fixtureSys (declDoc [])) (some (declDoc [canonRule "/a" PermRead (some true)]))
      PermWrite "/a".toList = .returned false :=
  C6_operation_gating (fixtureSys (declDoc []))
    (declDoc [canonRule "/a" PermRead (some true)]) PermWrite "/a".toList (by decide)

/-- C7: on a rule set whose granting rules have their `AllowSubpaths` pointer
set, `IsAllowed` returns true exactly when some rule both grants the operation
and matches the path, and false otherwise; so the result is the same for every
reordering of the rules. -/
theorem C7_any_granting_matching_rule (sys : Sys) (cfg : Config) (op : Permission)
    (target : Str)
    (hset : ∀ r ∈ cfg.Paths, r.parsedPerms &&& op ≠ 0 → r.AllowSubpaths ≠ none) :
    IsAllowed sys (some cfg) op target
        = .returned (cfg.Paths.any fun r => grantsOp r op && pathMatches r (cleanAbs sys target)) ∧
      ∀ cfg2 : Config, cfg2.Paths.Perm cfg.Paths →
        IsAllowed sys (some cfg2) op target = IsAllowed sys (some cfg) op target := by
  have hmain := isAllowedLoop_eq_any op (cleanAbs sys target) cfg.Paths hset
  refine ⟨hmain, ?_⟩
  intro cfg2 hperm
  have hset2 : ∀ r ∈ cfg2.Paths, r.parsedPerms &&& op ≠ 0 → r.AllowSubpaths ≠ none :=
    fun r hr => hset r (hperm.mem_iff.mp hr)
  unfold IsAllowed
  simp only
  rw [hmain, isAllowedLoop_eq_any op (cleanAbs sys target) cfg2.Paths hset2,
    any_perm _ _ _ hperm]

theorem C7_any_granting_matching_rule_witness :
    IsAllowed (fixtureSys (declDoc []))
        (some (declDoc [canonRule "/a" PermRead (some true), canonRule "/" PermWrite (some true)]))
        PermWrite "/a/file".toList = .returned true ∧
      IsAllowed (fixtureSys (declDoc []))
        (some (declDoc [canonRule "/" PermWrite (some true), canonRule "/a" PermRead (some true)]))
        PermWrite "/a/file".toList
        = IsAllowed (fixtureSys (declDoc []))
          (some (declDoc [canonRule "/a" PermRead (some true), canonRule "/" PermWrite (some true)]))
          PermWrite "/a/file".toList :=
  ⟨(C7_any_granting_matching_rule (fixtureSys (declDoc []))
      (declDoc [canonRule "/a" PermRead (some true), canonRule "/" PermWrite (some true)])
      PermWrite "/a/file".toList (by decide)).1.trans (by decide),
    (C7_any_granting_matching_rule (fixtureSys (declDoc []))
      (declDoc [canonRule "/a" PermRead (some true), canonRule "/" PermWrite (some true)])
      PermWrite "/a/file".toList (by decide)).2
      (declDoc [canonRule "/" PermWrite (some true), canonRule "/a" PermRead (some true)])
      (List.Perm.swap _ _ _)⟩

/-- C8: when some rule of the decoded document has a permission token that,
once expanded, is not a known name, `ParseConfigData` returns an error and no
configuration; the error is the one of such a rule and token, and its message
names the token and the path of that rule, whatever rules come before or after. -/
theorem C8_unknown_token_fails_load (sys : Sys) (data : List Nat) (doc : Config)
    (hdoc : sys.yamlUnmarshal data = .ok doc)
    (hbad : ∃ r ∈ doc.Paths, r.Perms ≠ [] ∧
      ∃ p ∈ r.Perms, normName sys (sys.expandEnv p) ∉ permNames) :
    ∃ r ∈ doc.Paths, ∃ p ∈ r.Perms, normName sys (sys.expandEnv p) ∉ permNames ∧
      ParseConfigData sys data
        = .error (.invalidPerms (sys.expandEnv r.Path)
            (.unknownPermission (sys.expandEnv p))) ∧
      (ConfigError.invalidPerms (sys.expandEnv r.Path)
          (.unknownPermission (sys.expandEnv p))).message sys
        = "invalid perms for path ".toList ++ sys.quote (sys.expandEnv r.Path) ++ ": ".toList ++
            ("unknown permission ".toList ++ sys.quote (sys.expandEnv p)) := by
  have hbad1 : ∃ r1 ∈ doc.Paths.map (expandEnvPathRule sys),
      ∃ p1 ∈ r1.Perms, normName sys p1 ∉ permNames := by
    obtain ⟨r, hr, _, p, hp, hp1⟩ := hbad
    exact ⟨expandEnvPathRule sys r, List.mem_map_of_mem _ hr, sys.expandEnv p,
      List.mem_map_of_mem _ hp, hp1⟩
  obtain ⟨r1, hr1, p1, hp1, hname, hres⟩ := parseRules_bad sys _ hbad1
  obtain ⟨r, hr, rfl⟩ := List.mem_map.mp hr1
  obtain ⟨p, hp, rfl⟩ := List.mem_map.mp hp1
  refine ⟨r, hr, p, hp, hname, ?_, rfl⟩
  unfold ParseConfigData
  rw [hdoc]
  simp only [expandEnvInValue]
  have hpaths : (if doc.Version = [] then { doc with Version := ConfigVersionV1 } else doc).Paths
      = doc.Paths := by
    split <;> rfl
  rw [hpaths, hres]
  rfl

theorem C8_unknown_token_fails_load_witness :
    ∃ r ∈ [declRule "/ok" ["read"] none, declRule "/data" ["write", "delete"] none,
        declRule "/later" [] none],
      ∃ p ∈ r.Perms, normName (fixtureSys (declDoc [declRule "/ok" ["read"] none,
          declRule "/data" ["write", "delete"] none, declRule "/later" [] none])) p ∉ permNames ∧
        ParseConfigData (fixtureSys (declDoc [declRule "/ok" ["read"] none,
          declRule "/data" ["write", "delete"] none, declRule "/later" [] none])) []
          = .error (.invalidPerms r.Path (.unknownPermission p)) ∧
        (ConfigError.invalidPerms r.Path (.unknownPermission p)).message
            (fixtureSys (declDoc [declRule "/ok" ["read"] none,
              declRule "/data" ["write", "delete"] none, declRule "/later" [] none]))
          = "invalid perms for path ".toList ++ ('"' :: r.Path ++ ['"']) ++ ": ".toList ++
              ("unknown permission ".toList ++ ('"' :: p ++ ['"'])) :=
  C8_unknown_token_fails_load
    (fixtureSys (declDoc [declRule "/ok" ["read"] none,
      declRule "/data" ["write", "delete"] none, declRule "/later" [] none])) []
    (declDoc [declRule "/ok" ["read"] none, declRule "/data" ["write", "delete"] none,
      declRule "/later" [] none]) rfl
    ⟨declRule "/data" ["write", "delete"] none, by decide, by decide,
      "delete".toList, by decide, by decide⟩

/-- C9: `parsePerms` succeeds exactly when every name, trimmed and lower-cased,
is one of `read`, `r`, `write`, `w`, `exec`, `execute`, `x`; on success the mask
is the bitwise OR of the bits of the names, and any other list holding the same
names, in any order and with any repetition, parses to the same mask. -/
theorem C9_parsePerms_spec (sys : Sys) (perms : List Str) :
    ((∃ mask, parsePerms sys perms = .ok mask) ↔ ∀ p ∈ perms, normName sys p ∈ permNames) ∧
      (∀ mask, parsePerms sys perms = .ok mask →
        mask = (perms.map fun p => permBitOf (normName sys p)).foldl (· ||| ·) 0) ∧
      (∀ mask (other : List Str), parsePerms sys perms = .ok mask →
        (∀ p, p ∈ other ↔ p ∈ perms) → parsePerms sys other = .ok mask) := by
  have hsucc : (∀ p ∈ perms, normName sys p ∈ permNames) →
      parsePerms sys perms
        = .ok ((perms.map fun p => permBitOf (normName sys p)).foldl (· ||| ·) 0) :=
    parsePermsLoop_all_known sys perms 0
  have hall : ∀ mask, parsePerms sys perms = .ok mask →
      ∀ p ∈ perms, normName sys p ∈ permNames := by
    intro mask hok
    by_contra hnot
    have hex : ∃ p ∈ perms, normName sys p ∉ permNames := by
      by_contra hne
      apply hnot
      intro p hp
      by_contra hbad
      exact hne ⟨p, hp, hbad⟩
    obtain ⟨p, _, _, hres⟩ := parsePermsLoop_some_unknown sys perms 0 hex
    unfold parsePerms at hok
    rw [hres] at hok
    exact absurd hok (by simp)
  refine ⟨⟨fun ⟨mask, hok⟩ => hall mask hok, fun h => ⟨_, hsucc h⟩⟩, ?_, ?_⟩
  · intro mask hok
    have h2 := hsucc (hall mask hok)
    rw [hok] at h2
    exact Except.ok.inj h2
  · intro mask other hok hsame
    have hknown := hall mask hok
    have h2 := hsucc hknown
    rw [hok] at h2
    have hother : ∀ p ∈ other, normName sys p ∈ permNames :=
      fun p hp => hknown p ((hsame p).mp hp)
    have h3 : parsePerms sys other
        = .ok ((other.map fun p => permBitOf (normName sys p)).foldl (· ||| ·) 0) :=
      parsePermsLoop_all_known sys other 0 hother
    rw [h3, Except.ok.inj h2]
    congr 1
    apply foldl_lor_congr
    intro b
    simp only [List.mem_map]
    constructor
    · rintro ⟨p, hp, rfl⟩; exact ⟨p, (hsame p).mp hp, rfl⟩
    · rintro ⟨p, hp, rfl⟩; exact ⟨p, (hsame p).mpr hp, rfl⟩

theorem C9_parsePerms_spec_witness :
    parsePerms (fixtureSys (declDoc [])) ["x".toList, "read".toList, "x".toList]
      = .ok (PermRead ||| PermExec) :=
  (C9_parsePerms_spec (fixtureSys (declDoc [])) ["read".toList, "x".toList]).2.2
    (PermRead ||| PermExec) ["x".toList, "read".toList, "x".toList] rfl
    (by intro p; simp only [List.mem_cons, List.mem_singleton, List.not_mem_nil]; tauto)

/-- Dereferencing a nil `AllowSubpaths`: on the rule `/a` granting Read with a nil
pointer, a Read query on `/b` panics, for every environment. -/
theorem isAllowed_nil_pointer_panics (sys : Sys) :
    IsAllowed sys (some (declDoc [canonRule "/a" PermRead none])) PermRead "/b".toList
      = .panicked := by
  have htarget : cleanAbs sys "/b".toList = "/b".toList :=
    cleanAbs_of_abs sys _ (by decide) (by decide)
  unfold IsAllowed
  simp only [htarget]
  decide

/-- Counterexample to C10 as stated: on a configuration built by hand with the
rule `/a` granting Read and a nil `AllowSubpaths`, the Read query on `/b` does
not return a boolean. -/
theorem C10_nil_allow_subpaths_counterexample :
    IsAllowed (fixtureSys (declDoc [])) (some (declDoc [canonRule "/a" PermRead none]))
        PermRead "/b".toList = .panicked ∧
      ¬ ∃ b : Bool,
        IsAllowed (fixtureSys (declDoc [])) (some (declDoc [canonRule "/a" PermRead none]))
          PermRead "/b".toList = .returned b := by
  have hpanic := isAllowed_nil_pointer_panics (fixtureSys (declDoc []))
  refine ⟨hpanic, ?_⟩
  rintro ⟨b, hb⟩
  rw [hpanic] at hb
  exact absurd hb (by simp)

/-- C10, amended: `IsAllowed` returns a boolean, and never panics, for the nil
configuration, for a configuration with an empty rule list, for every
configuration that `ParseConfigData` returns, and more generally for every
configuration whose rules granting the operation have their `AllowSubpaths`
pointer set, whatever the operation and the query path. -/
theorem C10_isAllowed_total (sys : Sys) :
    (∀ (cfg : Config) (op : Permission) (target : Str),
      (∀ r ∈ cfg.Paths, r.parsedPerms &&& op ≠ 0 → r.AllowSubpaths ≠ none) →
      ∃ b : Bool, IsAllowed sys (some cfg) op target = .returned b) ∧
      (∀ (data : List Nat) (doc cfg : Config) (op : Permission) (target : Str),
        sys.yamlUnmarshal data = .ok doc → ParseConfigData sys data = .ok cfg →
        ∃ b : Bool, IsAllowed sys (some cfg) op target = .returned b) ∧
      (∀ (op : Permission) (target : Str), IsAllowed sys none op target = .returned false) ∧
      (∀ (cfg : Config) (op : Permission) (target : Str), cfg.Paths = [] →
        IsAllowed sys (some cfg) op target = .returned false) := by
  refine ⟨?_, ?_, ?_, ?_⟩
  · intro cfg op target hset
    exact ⟨_, isAllowedLoop_eq_any op (cleanAbs sys target) cfg.Paths hset⟩
  · intro data doc cfg op target hdoc hload
    have hset := loaded_allowSubpaths_set sys data doc cfg hdoc hload
    exact ⟨_, isAllowedLoop_eq_any op (cleanAbs sys target) cfg.Paths
      (fun r hr _ => hset r hr)⟩
  · intro op target
    rfl
  · intro cfg op target hnil
    unfold IsAllowed
    simp only [hnil]
    rfl

theorem C10_isAllowed_total_witness :
    (∃ b : Bool,
      IsAllowed (fixtureSys (declDoc []))
        (some (declDoc [canonRule "/a" PermRead (some false), canonRule "/b" PermWrite none]))
        PermRead "/b".toList = .returned b) ∧
      ∃ b : Bool,
        IsAllowed (fixtureSys (declDoc [declRule "/a" ["read"] none]))
          (some { declDoc [canonRule "/a" PermRead (some false)] with
            Version := ConfigVersionV1,
            Paths := [{ declRule "/a" ["read"] (some false) with
              parsedPerms := PermRead, cleanPath := "/a".toList }] })
          PermRead "/b".toList = .returned b :=
  ⟨(C10_isAllowed_total (fixtureSys (declDoc []))).1
      (declDoc [canonRule "/a" PermRead (some false), canonRule "/b" PermWrite none])
      PermRead "/b".toList (by decide),
    (C10_isAllowed_total (fixtureSys (declDoc [declRule "/a" ["read"] none]))).2.1 []
      (declDoc [declRule "/a" ["read"] none])
      { declDoc [canonRule "/a" PermRead (some false)] with
        Version := ConfigVersionV1,
        Paths := [{ declRule "/a" ["read"] (some false) with
          parsedPerms := PermRead, cleanPath := "/a".toList }] }
      PermRead "/b".toList rfl rfl⟩

/-- C11: `ParseConfigData` expands environment references before it cleans
paths. In every loaded configuration, the rule at the place of a declared rule
has the expansion of the declared path as its `Path` and the cleaned,
absolutized expansion as its `cleanPath`; the expansion never makes the load
fail. With `os.ExpandEnv`, `${X}/a` expands to the value of `X` followed by `/a`
and `${Y}` to the value of `Y`, which is empty when `Y` is not set: with
`X=/tmp` the path `${X}/a` is loaded with `cleanPath` `/tmp/a`, and with `Y`
unset the path `/srv/${Y}` is loaded as `/srv/`, with `cleanPath` `/srv`. -/
theorem C11_expansion_before_cleaning (sys : Sys) :
    (∀ (data : List Nat) (doc cfg : Config) (i : Nat) (r : PathRule),
      sys.yamlUnmarshal data = .ok doc → ParseConfigData sys data = .ok cfg →
      doc.Paths[i]? = some r →
      ∃ r1, cfg.Paths[i]? = some r1 ∧ r1.Path = sys.expandEnv r.Path ∧
        r1.cleanPath = cleanAbs sys (sys.expandEnv r.Path)) ∧
      (∀ (data : List Nat) (inner : ConfigError),
        ParseConfigData sys data ≠ .error (.expandEnv inner)) ∧
      (∀ getenv : Str → Str,
        os.ExpandEnv getenv "${X}/a".toList = getenv "X".toList ++ "/a".toList ∧
          os.ExpandEnv getenv "${Y}".toList = getenv "Y".toList) ∧
      (∃ cfg,
        ParseConfigData (envSys sampleGetenv (declDoc [declRule "${X}/a" ["read"] none])) []
            = .ok cfg ∧
          cfg.Paths.map (·.cleanPath) = ["/tmp/a".toList]) ∧
      (∃ cfg,
        ParseConfigData (envSys sampleGetenv (declDoc [declRule "/srv/${Y}" ["read"] none])) []
            = .ok cfg ∧
          cfg.Paths.map (·.Path) = ["/srv/".toList] ∧
          cfg.Paths.map (·.cleanPath) = ["/srv".toList]) := by
  refine ⟨?_, ParseConfigData_no_expand_error sys, ?_, ⟨_, rfl, by decide⟩,
    ⟨_, rfl, by decide, by decide⟩⟩
  · intro data doc cfg i r hdoc hload hr
    obtain ⟨r1, h1, h2⟩ := ParseConfigData_rule sys data doc cfg hdoc hload i r hr
    exact ⟨r1, h1, parseRule_Path sys _ r1 h2, parseRule_cleanPath sys _ r1 h2⟩
  · intro getenv
    exact ⟨rfl, by simp [os.ExpandEnv, os.Expand, os.expandLoop, os.getShellName]⟩

theorem C11_expansion_before_cleaning_witness :
    ∃ r1, ([{ declRule "/tmp/a" ["read"] (some false) with
          parsedPerms := PermRead, cleanPath := "/tmp/a".toList }] : List PathRule)[0]?
        = some r1 ∧
      r1.Path = (envSys sampleGetenv (declDoc [declRule "${X}/a" ["read"] none])).expandEnv
        "${X}/a".toList ∧
      r1.cleanPath = cleanAbs (envSys sampleGetenv (declDoc [declRule "${X}/a" ["read"] none]))
        ((envSys sampleGetenv (declDoc [declRule "${X}/a" ["read"] none])).expandEnv
          "${X}/a".toList) :=
  (C11_expansion_before_cleaning
      (envSys sampleGetenv (declDoc [declRule "${X}/a" ["read"] none]))).1 []
    (declDoc [declRule "${X}/a" ["read"] none])
    { declDoc [{ declRule "/tmp/a" ["read"] (some false) with
        parsedPerms := PermRead, cleanPath := "/tmp/a".toList }] with
      Version := ConfigVersionV1 }
    0 (declRule "${X}/a" ["read"] none) rfl rfl rfl

/-- C12 (the code departs from the claim): the expansion pass does not leave an
unset `AllowSubpaths` unset. The `reflect.Pointer` case replaces the nil pointer
by a pointer to a new `false`: on the configuration with the single rule `/a`
declared without `allow_subpaths`, both `expandEnvInValue` and `Config.ExpandEnv`
end with the flag pointing to `false`, and return no error. -/
theorem C12_expansion_allocates_unset_flag (sys : Sys) :
    (expandEnvInValue sys (declDoc [declRule "/a" ["read"] none])).map
        (fun c => c.Paths.map (·.AllowSubpaths)) = .ok [some false] ∧
      (Config.ExpandEnv sys (some (declDoc [declRule "/a" ["read"] none]))).1.map
        (fun c => c.Paths.map (·.AllowSubpaths)) = some [some false] ∧
      (Config.ExpandEnv sys (some (declDoc [declRule "/a" ["read"] none]))).2 = none :=
  ⟨rfl, rfl, rfl⟩

/-- C13: a loaded rule matches its own path. For every rule of a loaded
configuration and every operation that its mask grants, the query on the rule's
`Path` (the declared path after expansion), made in the same environment,
normalizes to the rule's `cleanPath` and `IsAllowed` returns true, whatever the
subpath flag. -/
theorem C13_loaded_rule_matches_own_path (sys : Sys) (data : List Nat) (doc cfg : Config)
    (hdoc : sys.yamlUnmarshal data = .ok doc) (hload : ParseConfigData sys data = .ok cfg)
    (r : PathRule) (hr : r ∈ cfg.Paths) (op : Permission) (hop : r.parsedPerms &&& op ≠ 0) :
    cleanAbs sys r.Path = r.cleanPath ∧
      IsAllowed sys (some cfg) op r.Path = .returned true := by
  have hown := loaded_cleanPath_own sys data doc cfg hdoc hload r hr
  refine ⟨hown.symm, ?_⟩
  have hset := loaded_allowSubpaths_set sys data doc cfg hdoc hload
  unfold IsAllowed
  simp only
  rw [isAllowedLoop_eq_any op _ cfg.Paths (fun q hq _ => hset q hq)]
  have hany : (cfg.Paths.any fun q => grantsOp q op && pathMatches q (cleanAbs sys r.Path))
      = true := by
    rw [List.any_eq_true]
    refine ⟨r, hr, ?_⟩
    simp [grantsOp, pathMatches, hop, hown]
  rw [hany]

theorem C13_loaded_rule_matches_own_path_witness :
    cleanAbs (fixtureSys (declDoc [declRule "x/../data//" ["write"] (some false)]))
        "x/../data//".toList = "/data".toList ∧
      IsAllowed (fixtureSys (declDoc [declRule "x/../data//" ["write"] (some false)]))
        (some { declDoc [{ declRule "x/../data//" ["write"] (some false) with
            parsedPerms := PermWrite, cleanPath := "/data".toList }] with
          Version := ConfigVersionV1 })
        PermWrite "x/../data//".toList = .returned true :=
  C13_loaded_rule_matches_own_path
    (fixtureSys (declDoc [declRule "x/../data//" ["write"] (some false)])) []
    (declDoc [declRule "x/../data//" ["write"] (some false)])
    { declDoc [{ declRule "x/../data//" ["write"] (some false) with
        parsedPerms := PermWrite, cleanPath := "/data".toList }] with
      Version := ConfigVersionV1 }
    rfl rfl
    { declRule "x/../data//" ["write"] (some false) with
      parsedPerms := PermWrite, cleanPath := "/data".toList }
    (by decide) PermWrite (by decide)

/-- C14: on a rule set whose rules granting `a ||| b` have their `AllowSubpaths`
pointer set, the queries for `a`, for `b` and for `a ||| b` all return, and the
last result is the disjunction of the first two. The query for `PermNone`
returns false for every configuration and path, and the rule granting only Read
on `/a` allows the query for Read or Write on `/a`. -/
theorem C14_combined_operation (sys : Sys) :
    (∀ (cfg : Config) (a b : Permission) (target : Str),
      (∀ r ∈ cfg.Paths, r.parsedPerms &&& (a ||| b) ≠ 0 → r.AllowSubpaths ≠ none) →
      ∃ x y, IsAllowed sys (some cfg) a target = .returned x ∧
        IsAllowed sys (some cfg) b target = .returned y ∧
        IsAllowed sys (some cfg) (a ||| b) target = .returned (x || y)) ∧
      (∀ (c : Option Config) (target : Str),
        IsAllowed sys c PermNone target = .returned false) ∧
      IsAllowed sys (some (declDoc [canonRule "/a" PermRead (some true)]))
        (PermRead ||| PermWrite) "/a".toList = .returned true := by
  refine ⟨?_, ?_, ?_⟩
  · intro cfg a b target hset
    have hgrant : ∀ (r : PathRule) (c : Permission), (c = a ∨ c = b) →
        r.parsedPerms &&& c ≠ 0 → r.parsedPerms &&& (a ||| b) ≠ 0 := by
      intro r c hc hne hzero
      rw [Nat.and_or_distrib_left, lor_eq_zero_iff] at hzero
      rcases hc with rfl | rfl
      · exact hne hzero.1
      · exact hne hzero.2
    refine ⟨_, _,
      isAllowedLoop_eq_any a _ cfg.Paths
        (fun r hr hne => hset r hr (hgrant r a (Or.inl rfl) hne)),
      isAllowedLoop_eq_any b _ cfg.Paths
        (fun r hr hne => hset r hr (hgrant r b (Or.inr rfl) hne)), ?_⟩
    unfold IsAllowed
    simp only
    rw [isAllowedLoop_eq_any (a ||| b) _ cfg.Paths hset, ← any_or]
    congr 2
    funext r
    rw [grantsOp_lor]
    cases grantsOp r a <;> cases grantsOp r b <;>
      cases pathMatches r (cleanAbs sys target) <;> rfl
  · intro c target
    cases c with
    | none => rfl
    | some cfg =>
      exact isAllowedLoop_no_grant PermNone _ cfg.Paths (fun r _ => by simp [PermNone])
  · have htarget : cleanAbs sys "/a".toList = "/a".toList :=
      cleanAbs_of_abs sys _ (by decide) (by decide)
    unfold IsAllowed
    simp only [htarget]
    decide

theorem C14_combined_operation_witness :
    ∃ x y,
      IsAllowed (fixtureSys (declDoc []))
          (some (declDoc [canonRule "/a" PermRead (some true), canonRule "/b" PermWrite none]))
          PermRead "/a/x".toList = .returned x ∧
        IsAllowed (fixtureSys (declDoc []))
          (some (declDoc [canonRule "/a" PermRead (some true), canonRule "/b" PermWrite none]))
          PermExec "/a/x".toList = .returned y ∧
        IsAllowed (fixtureSys (declDoc []))
          (some (declDoc [canonRule "/a" PermRead (some true), canonRule "/b" PermWrite none]))
          (PermRead ||| PermExec) "/a/x".toList = .returned (x || y) :=
  (C14_combined_operation (fixtureSys (declDoc []))).1
    (declDoc [canonRule "/a" PermRead (some true), canonRule "/b" PermWrite none])
    PermRead PermExec "/a/x".toList (by decide)

end Mcpfs
